import Mathlib

/-!
Verification of the orchestration core of the glauka reconnaissance tool.

Shallow embedding of:
- `HttpClient.request`, `_compute_backoff`, `_retry_after_delay` (src/core/http_client.py)
- `DecisionEngine.evaluate` (src/core/decision_engine.py)
- `run_task_queue` and `_normalize_target` (src/apps/recon.py)
- `ReconContext.emit` (src/core/models.py)
- `save_state` / `load_state` (src/state_manager.py)
- `_resolve_module_layers` (src/core/recon.py)

Conventions: Python strings are Lean `String`s, but Python string primitives
(`str.lower`, `str.strip`, `str.rstrip`, `str.upper`, prefix tests, decimal
parsing and printing) are embedded as structurally recursive functions over
`String.data` so that every definition evaluates by kernel reduction.
Python numbers appearing in delay computations are embedded as `ℚ` (the
delays involved are produced by exact arithmetic on the inputs), and the
single call to `random.uniform(0, m)` is embedded as `m * r` for a
parameter `r` with `0 ≤ r < 1`, which is the distribution's support.
-/

/-! ## Python string primitives, embedded over `String.data` -/

/-- Python `str.lower()` (ASCII part, which is all the code relies on). -/
def pyLower (s : String) : String := ⟨s.data.map Char.toLower⟩

/-- Python `str.strip()`: remove leading and trailing whitespace. -/
def pyStrip (s : String) : String :=
  ⟨((s.data.dropWhile Char.isWhitespace).reverse.dropWhile Char.isWhitespace).reverse⟩

/-- Python `str.rstrip("/")`: remove all trailing slashes. -/
def pyRstripSlash (s : String) : String :=
  ⟨(s.data.reverse.dropWhile (fun c => c = '/')).reverse⟩

/-- Python `str.upper()` (ASCII part). -/
def pyUpper (s : String) : String := ⟨s.data.map Char.toUpper⟩

/-- Python `str.startswith(pre)`. -/
def pyStartsWith (s pre : String) : Bool := pre.data.isPrefixOf s.data

/-- Value of an ASCII digit character, `none` for non-digits. -/
def digitVal? (c : Char) : Option Nat :=
  if 48 ≤ c.toNat ∧ c.toNat ≤ 57 then some (c.toNat - 48) else none

/-- Parse a nonempty all-digit character list as a natural number
(decimal, leading zeros allowed, as Python `int`/`float` accept them). -/
def digitsVal? (cs : List Char) : Option Nat :=
  if cs.isEmpty then none
  else (cs.mapM digitVal?).map (fun ds => Nat.ofDigits 10 ds.reverse)

/-- Split a character list at the first dot into integer part and
(optional) fractional part, for decimal parsing. -/
def splitIntFrac : List Char → List Char × Option (List Char)
  | [] => ([], none)
  | '.' :: rest => ([], some rest)
  | c :: rest =>
    let p := splitIntFrac rest
    (c :: p.1, p.2)

/-- Parse an unsigned decimal (digits with optional fractional digits) as an
exact rational.  Modelled subset of Python `float(...)`: the forms produced
by `Retry-After` headers (`"120"`, `"1.5"`, ...); exponents, specials and a
leading dot are not modelled and simply fail to parse. -/
def parseUnsignedQ? (cs : List Char) : Option ℚ :=
  let p := splitIntFrac cs
  match p.2 with
  | none => (digitsVal? p.1).map (fun n => (n : ℚ))
  | some f =>
    match digitsVal? p.1, f.mapM digitVal? with
    | some n, some fds =>
      some ((n : ℚ) + (Nat.ofDigits 10 fds.reverse : ℚ) / (10 : ℚ) ^ f.length)
    | _, _ => none

/-- Python `float(s)` on the modelled grammar, with an optional sign. -/
def pyFloatQ? (s : String) : Option ℚ :=
  if s.data.head? = some '-' then (parseUnsignedQ? s.data.tail).map (fun q => -q)
  else if s.data.head? = some '+' then parseUnsignedQ? s.data.tail
  else parseUnsignedQ? s.data

/-! ## `HttpClient` retry machinery (src/core/http_client.py) -/

/-- An HTTP response as far as the retry loop inspects it: its status code,
its `Retry-After` header (the only header the loop reads), and an opaque
body standing for the rest of the response object. -/
structure MResp where
  status : Nat
  retryAfter : Option String := none
  body : String := ""
deriving DecidableEq, Repr

/-- What one attempt of `_send_once` produced: an exception (transport-level
failure) or an HTTP response. -/
inductive AttemptOutcome where
  | exc (e : String)
  | resp (r : MResp)
deriving DecidableEq, Repr

/-- How `HttpClient.request` ends: returning a response, re-raising the last
transport exception, or raising `RuntimeError("HTTP request failed with no
response")`. -/
inductive RequestOutcome where
  | ok (r : MResp)
  | raisedLast (e : String)
  | raisedNoResponse
deriving DecidableEq, Repr

/-- `HttpClient._compute_backoff(attempt, backoff_factor, jitter)`:
`backoff_factor * 2 ** (attempt - 1) + random.uniform(0, max(0.0, jitter))`,
with the uniform draw embedded as `max 0 jitter * r`, `0 ≤ r < 1`. -/
def computeBackoff (attempt : Nat) (backoffFactor jitter r : ℚ) : ℚ :=
  backoffFactor * 2 ^ (attempt - 1) + max 0 jitter * r

/-- `HttpClient._retry_after_delay(headers, attempt, backoff_factor, jitter)`:
use `max(float(headers["Retry-After"]), 0.1)` when the header is present,
nonempty and parses; otherwise fall through to `_compute_backoff`. -/
def retryAfterDelay (headers : List (String × String)) (attempt : Nat)
    (backoffFactor jitter r : ℚ) : ℚ :=
  match headers.lookup "Retry-After" with
  | some ra =>
    if ra ≠ "" then
      match pyFloatQ? ra with
      | some v => max v 0.1
      | none => computeBackoff attempt backoffFactor jitter r
    else computeBackoff attempt backoffFactor jitter r
  | none => computeBackoff attempt backoffFactor jitter r

/-- The attempt loop of `HttpClient.request`, indexed by the outcomes of the
successive `_send_once` calls (one list element per remaining attempt, so
`attempt < attempts` is `rest ≠ []`) and the `last_exc` accumulator.
Status `>= 500` retries only when attempts remain; status `429` with
throttling enabled re-enters the loop unconditionally, exactly as in the
source; any other response returns.  After the loop, `last_exc` is re-raised
when set, else `RuntimeError("HTTP request failed with no response")`. -/
def requestLoop (throttleOn429 : Bool) :
    List AttemptOutcome → Option String → RequestOutcome
  | [], some e => .raisedLast e
  | [], none => .raisedNoResponse
  | .exc e :: rest, _ => requestLoop throttleOn429 rest (some e)
  | .resp r :: rest, lastExc =>
    if 500 ≤ r.status ∧ rest ≠ [] then requestLoop throttleOn429 rest lastExc
    else if r.status = 429 ∧ throttleOn429 = true then
      requestLoop throttleOn429 rest lastExc
    else .ok r

/-! ## `DecisionEngine` (src/core/decision_engine.py) -/

/-- `ProbeResult` (src/core/probe.py). -/
structure ProbeResultM where
  status_code : Option Int
  title : Option String := none
  server : Option String := none
  content_length : Option Int := none
  technologies : List String := []
deriving DecidableEq, Repr

/-- `ScanTask` (src/core/decision_engine.py). -/
structure ScanTaskM where
  task_type : String
  args : Option (List String) := none
deriving DecidableEq, Repr

/-- `DecisionEngine.evaluate`: the rule table, each rule appending its task
independently of the others. -/
def decisionEvaluate (pr : ProbeResultM) : List ScanTaskM :=
  let status := pr.status_code
  let techs := pr.technologies
  let contentLength := pr.content_length.getD 0
  (if status = some 403 then [{ task_type := "403_BYPASS" }] else [])
    ++ (if "Jenkins" ∈ techs then
          [{ task_type := "NUCLEI_SCAN", args := some ["jenkins-cves"] }] else [])
    ++ (if "WordPress" ∈ techs then [{ task_type := "WP_SCAN" }] else [])
    ++ (if status = some 200 ∧ 0 < contentLength then
          [{ task_type := "JS_ANALYSIS" }] else [])
    ++ (if status = some 200 then [{ task_type := "FUZZING" }] else [])

/-! ## `ReconContext.emit` (src/core/models.py) -/

/-- The slice of `ReconContext` that `emit` reads and writes, plus two ghost
traces: `event_log` models the newline-delimited records appended to the
event file (timestamps abstracted away), `cb_calls` records every invocation
of the progress observer, in order.  `has_progress_cb` is whether
`progress_cb` is registered. -/
structure EmitState where
  progress_seen : List (String × List String)
  event_path : Option String := none
  has_progress_cb : Bool := true
  event_log : List (String × String) := []
  cb_calls : List (String × String) := []
deriving DecidableEq, Repr

/-- Values already seen for a category (`_progress_seen.setdefault(cat, set())`
viewed as a read). -/
def seenOf (ps : List (String × List String)) (cat : String) : List String :=
  (ps.lookup cat).getD []

/-- Add a value to a category's seen-set (`seen.add(value)` after the
`setdefault`). -/
def addSeen : List (String × List String) → String → String →
    List (String × List String)
  | [], cat, v => [(cat, [v])]
  | (c, vs) :: rest, cat, v =>
    if c = cat then (c, vs ++ [v]) :: rest else (c, vs) :: addSeen rest cat v

/-- Truthiness of `self.event_path` (`None` and `""` are falsy). -/
def eventConfigured (st : EmitState) : Bool :=
  match st.event_path with
  | some p => p != ""
  | none => false

/-- `ReconContext.emit(category, value)`. -/
def emit (st : EmitState) (category value : String) : EmitState :=
  if category = "" ∨ value = "" then st
  else
    let cat := pyStrip (pyLower category)
    if value ∈ seenOf st.progress_seen cat then st
    else
      let st1 := { st with progress_seen := addSeen st.progress_seen cat value }
      let st2 :=
        if eventConfigured st1 then
          { st1 with event_log := st1.event_log ++ [(cat, value)] }
        else st1
      if st2.has_progress_cb then
        { st2 with cb_calls := st2.cb_calls ++ [(cat, value)] }
      else st2

/-- Fold `emit` over a list of `(category, value)` invocations. -/
def emitAll (st : EmitState) (l : List (String × String)) : EmitState :=
  l.foldl (fun s p => emit s p.1 p.2) st

/-! ## `run_task_queue` (src/apps/recon.py) -/

/-- `_normalize_target`. -/
def normalizeTarget (t : String) : String :=
  if pyStartsWith t "http://" ∨ pyStartsWith t "https://" then pyRstripSlash t
  else pyRstripSlash ("http://" ++ t)

/-- The behaviour of the external world during one run of the queue loop:
`probeRes t` is the `ProbeResult` that `SmartProbe.probe_url(t)` yields, and
`taskEps t ty` is the list of endpoints that executing the (implemented)
task of type `ty` against `t` appends to `ctx.new_endpoints`. -/
structure QEnv where
  probeRes : String → ProbeResultM
  taskEps : String → String → List String

/-- `_execute_task` as far as endpoint discovery is concerned: dispatch on
the upper-cased task type; unknown types are logged and skipped, so they
discover nothing. -/
def execTaskEps (env : QEnv) (target : String) (task : ScanTaskM) : List String :=
  let ttype := pyUpper task.task_type
  if ttype = "403_BYPASS" ∨ ttype = "FUZZING" ∨ ttype = "JS_ANALYSIS" then
    env.taskEps target ttype
  else []

/-- The queue-loop state: the pending `queue`, the `seen` set (as the list of
elements in insertion order), plus two ghost traces: `probes` is the order in
which targets were actually probed, `arrivals` the order in which targets
were first enqueued. -/
structure QState where
  queue : List String
  seen : List String := []
  probes : List String := []
  arrivals : List String := []
deriving DecidableEq, Repr

/-- The per-task flush: append each endpoint in `ctx.new_endpoints` that is
neither seen nor already queued, then clear the buffer. -/
def enqueueEps (st : QState) (eps : List String) : QState :=
  eps.foldl
    (fun s ep =>
      if ep ∉ s.seen ∧ ep ∉ s.queue then
        { s with queue := s.queue ++ [ep], arrivals := s.arrivals ++ [ep] }
      else s)
    st

/-- One full body of the `while queue:` loop applied to popped target `t`:
mark seen, probe, evaluate, execute each task sequentially flushing
discovered endpoints after each. -/
def queueStep (env : QEnv) (st : QState) (t : String) (rest : List String) : QState :=
  let st1 := { st with queue := rest, seen := st.seen ++ [t], probes := st.probes ++ [t] }
  (decisionEvaluate (env.probeRes t)).foldl
    (fun s task => enqueueEps s (execTaskEps env t task)) st1

/-- `run_task_queue`'s loop, fuel-indexed (the Python loop runs until the
queue empties, which need not happen for adversarial environments; every
theorem below either supplies sufficient fuel or hypothesises that the
queue emptied). -/
def runQueueLoop (env : QEnv) : Nat → QState → QState
  | 0, st => st
  | fuel + 1, st =>
    match st.queue with
    | [] => st
    | t :: rest =>
      if t ∈ st.seen then runQueueLoop env fuel { st with queue := rest }
      else runQueueLoop env fuel (queueStep env st t rest)

/-- The initial state built by `run_task_queue(initial_targets)`: seeds are
normalized on entry. -/
def initQState (initialTargets : List String) : QState :=
  { queue := initialTargets.map normalizeTarget,
    arrivals := initialTargets.map normalizeTarget }

/-- `run_task_queue(initial_targets)` with the given fuel. -/
def runTaskQueue (env : QEnv) (fuel : Nat) (initialTargets : List String) : QState :=
  runQueueLoop env fuel (initQState initialTargets)

/-! ## Snapshot store (src/state_manager.py)

`save_state` serializes the context dict with `json.dumps` and gzips it;
`load_state` reads, decompresses (with a plain-text fallback), parses and
validates against the pydantic `ReconStateModel` schema.  The embedding
works at the level of the parsed JSON document: `SnapshotFile.parsed j`
stands for a file whose bytes decompress/decode and `json.loads` to `j`,
and `SnapshotFile.undecodable` for every byte-level failure (missing gzip
integrity, undecodable UTF-8, unparseable JSON), all of which the source
maps to `{}` before validation is reached.  JSON numeric leaves are
modelled as integers. -/

/-- A parsed JSON document.  Python dicts are association lists in key
insertion order (keys unique for documents arising from `json.loads`). -/
inductive JVal where
  | jnull
  | jbool (b : Bool)
  | jnum (n : Int)
  | jstr (s : String)
  | jarr (xs : List JVal)
  | jobj (fields : List (String × JVal))

/-- Little-endian decimal digits (fuel-indexed so that it evaluates by
kernel reduction; `natDigitsRev` supplies sufficient fuel). -/
def natDigitsRevAux : Nat → Nat → List Nat
  | 0, _ => []
  | fuel + 1, n => if n = 0 then [] else n % 10 :: natDigitsRevAux fuel (n / 10)

/-- Little-endian decimal digits of `n` ( `[]` for 0). -/
def natDigitsRev (n : Nat) : List Nat := natDigitsRevAux n n

/-- Python `str(n)` for a natural number. -/
def natKeyStr (n : Nat) : String :=
  if n = 0 then "0" else ⟨((natDigitsRev n).map Nat.digitChar).reverse⟩

/-- Python `str(i)` for an int: `json.dumps` stringifies int dict keys this
way. -/
def intKeyStr : Int → String
  | .ofNat n => natKeyStr n
  | .negSucc m => "-" ++ natKeyStr (m + 1)

/-- Python `int(s)` on decimal strings: pydantic's str-to-int key coercion
for `Dict[int, str]` fields (whitespace/plus-sign forms not modelled). -/
def parseIntKey? (s : String) : Option Int :=
  if s.data.head? = some '-' then (digitsVal? s.data.tail).map (fun n => -(n : Int))
  else (digitsVal? s.data).map (fun n => (n : Int))

/-- `ScopeState` (the pydantic scope sub-model; all fields defaulted). -/
structure SnapScope where
  host : String := ""
  ip : String := ""
  url : String := ""
  mode : String := "passive"
deriving DecidableEq, Repr

/-- The fields of `ReconContext` that `save_state` serializes and
`ReconStateModel` validates: the run's accumulators plus scope and config. -/
structure SnapState where
  scope : SnapScope
  config : List (String × JVal) := []
  subdomains : List String := []
  base_ports : List (Int × String) := []
  web_ports : List (String × List Int) := []
  nuclei_raw : String := ""
  nuclei_urls : List String := []
  findings : List String := []
  screenshots : List String := []
  extra : List (String × JVal) := []
  timings : List (String × Int) := []

/-- `scope.__dict__` as serialized by `save_state`. -/
def encodeScope (s : SnapScope) : JVal :=
  .jobj [("host", .jstr s.host), ("ip", .jstr s.ip),
         ("url", .jstr s.url), ("mode", .jstr s.mode)]

/-- The document `save_state` writes: the `state` dict literal of the
source, with int dict keys stringified as `json.dumps` does. -/
def encodeState (s : SnapState) : JVal :=
  .jobj
    [("scope", encodeScope s.scope),
     ("config", .jobj s.config),
     ("subdomains", .jarr (s.subdomains.map .jstr)),
     ("base_ports", .jobj (s.base_ports.map (fun kv => (intKeyStr kv.1, .jstr kv.2)))),
     ("web_ports", .jobj (s.web_ports.map (fun kv => (kv.1, .jarr (kv.2.map .jnum))))),
     ("nuclei_raw", .jstr s.nuclei_raw),
     ("nuclei_urls", .jarr (s.nuclei_urls.map .jstr)),
     ("findings", .jarr (s.findings.map .jstr)),
     ("screenshots", .jarr (s.screenshots.map .jstr)),
     ("extra", .jobj s.extra),
     ("timings", .jobj (s.timings.map (fun kv => (kv.1, .jnum kv.2))))]

/-- Validate a JSON value as `str`. -/
def jStr? : JVal → Option String
  | .jstr s => some s
  | _ => none

/-- Validate a JSON value as an int (`float` fields also accept ints). -/
def jInt? : JVal → Option Int
  | .jnum n => some n
  | _ => none

/-- Validate a JSON value as `List[str]`. -/
def jStrList? : JVal → Option (List String)
  | .jarr xs => xs.mapM jStr?
  | _ => none

/-- Validate a JSON value as `List[int]`. -/
def jIntList? : JVal → Option (List Int)
  | .jarr xs => xs.mapM jInt?
  | _ => none

/-- Validate a JSON value as `Dict[str, Any]`. -/
def jObj? : JVal → Option (List (String × JVal))
  | .jobj fs => some fs
  | _ => none

/-- Look up an optional pydantic field, substituting its default when
absent and validating it when present. -/
def fieldD {α : Type} (fs : List (String × JVal)) (k : String)
    (parse : JVal → Option α) (d : α) : Option α :=
  match fs.lookup k with
  | none => some d
  | some v => parse v

/-- Validate `ScopeState` (dict input; every field optional). -/
def validScope? (j : JVal) : Option SnapScope :=
  match j with
  | .jobj fs => do
    let host ← fieldD fs "host" jStr? ""
    let ip ← fieldD fs "ip" jStr? ""
    let url ← fieldD fs "url" jStr? ""
    let mode ← fieldD fs "mode" jStr? "passive"
    some { host := host, ip := ip, url := url, mode := mode }
  | _ => none

/-- Validate `Dict[int, str]` (keys coerced from strings). -/
def validBasePorts? (j : JVal) : Option (List (Int × String)) :=
  match j with
  | .jobj fs =>
    fs.mapM (fun kv => do
      let k ← parseIntKey? kv.1
      let v ← jStr? kv.2
      some (k, v))
  | _ => none

/-- Validate `Dict[str, List[int]]`. -/
def validWebPorts? (j : JVal) : Option (List (String × List Int)) :=
  match j with
  | .jobj fs => fs.mapM (fun kv => (jIntList? kv.2).map (fun l => (kv.1, l)))
  | _ => none

/-- Validate `Dict[str, float]` (numeric leaves modelled as integers). -/
def validTimings? (j : JVal) : Option (List (String × Int)) :=
  match j with
  | .jobj fs => fs.mapM (fun kv => (jInt? kv.2).map (fun n => (kv.1, n)))
  | _ => none

/-- `ReconStateModel(**data)` for a dict `data`: `scope` is required, every
other field defaults; any field-level validation failure is a
`ValidationError` (mapped to `none`); `extra = "ignore"` drops unknown
keys. -/
def validState? (fs : List (String × JVal)) : Option SnapState := do
  let scopeJ ← fs.lookup "scope"
  let scope ← validScope? scopeJ
  let config ← fieldD fs "config" jObj? []
  let subdomains ← fieldD fs "subdomains" jStrList? []
  let base_ports ← fieldD fs "base_ports" validBasePorts? []
  let web_ports ← fieldD fs "web_ports" validWebPorts? []
  let nuclei_raw ← fieldD fs "nuclei_raw" jStr? ""
  let nuclei_urls ← fieldD fs "nuclei_urls" jStrList? []
  let findings ← fieldD fs "findings" jStrList? []
  let screenshots ← fieldD fs "screenshots" jStrList? []
  let extra ← fieldD fs "extra" jObj? []
  let timings ← fieldD fs "timings" validTimings? []
  some { scope := scope, config := config, subdomains := subdomains,
         base_ports := base_ports, web_ports := web_ports,
         nuclei_raw := nuclei_raw, nuclei_urls := nuclei_urls,
         findings := findings, screenshots := screenshots,
         extra := extra, timings := timings }

/-- A snapshot file as `load_state` sees it after the byte-level stages:
absent, byte-level-invalid (gzip/UTF-8/JSON failures, all mapped to `{}`
by the source), or parsed to a JSON document. -/
inductive SnapshotFile where
  | absent
  | undecodable
  | parsed (j : JVal)

/-- The observable result of `load_state`: the empty "no snapshot" dict, a
fully validated state, or an uncaught `TypeError` (raised by
`ReconStateModel(**data)` when `data` is not a mapping — only
`ValidationError` is caught by the source). -/
inductive LoadResult where
  | noSnapshot
  | loaded (s : SnapState)
  | typeError

/-- `load_state(path)`. -/
def load_state : SnapshotFile → LoadResult
  | .absent => .noSnapshot
  | .undecodable => .noSnapshot
  | .parsed j =>
    match j with
    | .jobj fs =>
      match validState? fs with
      | some s => .loaded s
      | none => .noSnapshot
    | _ => .typeError

/-- `save_state(ctx, path)`: the file that ends up on disk, viewed at the
parsed-document level (compression is lossless and is undone by
`load_state`). -/
def save_state (s : SnapState) : SnapshotFile := .parsed (encodeState s)

/-! ## `_resolve_module_layers` (src/core/recon.py)

Kahn's-algorithm layering.  Python dicts keyed by module name are embedded
as lists in insertion order; the theorems hypothesise that enabled module
names are distinct (the spec's data model declares `name` a unique key, and
a dict would silently collapse duplicates).  The mutable `indegree` dict is
embedded as a pointwise-updated function `String → Int`. -/

/-- A `Unit`/module descriptor as the scheduler reads it. -/
structure RModule where
  name : String
  enabled : Bool := true
  depends_on : List String := []
deriving DecidableEq, Repr

/-- `active`: enabled modules in declaration order. -/
def activeModules (modules : List RModule) : List RModule :=
  modules.filter (·.enabled)

/-- The names of the enabled modules (the key set of `active`). -/
def activeNames (modules : List RModule) : List String :=
  (activeModules modules).map (·.name)

/-- `deps_map[n]`: the declared dependencies of the enabled module named
`n`, restricted to enabled names (missing ones are dropped with a
warning). -/
def depsOfName (modules : List RModule) (n : String) : List String :=
  match (activeModules modules).find? (fun m => m.name == n) with
  | some m => m.depends_on.filter (fun d => d ∈ activeNames modules)
  | none => []

/-- `graph[d]`: the reverse-dependency adjacency built by appending `n` to
`graph[d]` once per occurrence of `d` in `deps_map[n]`, in `deps_map`
iteration order. -/
def dependentsOf (modules : List RModule) (d : String) : List String :=
  (activeModules modules).flatMap
    (fun m =>
      List.replicate ((m.depends_on.filter (fun x => x ∈ activeNames modules)).count d)
        m.name)

/-- The per-pass mutable state of the `while ready:` loop body: the
`visited` set (insertion order), the `indegree` dict, and the pass-local
`current_layer` and `next_ready` accumulators. -/
structure PassSt where
  visited : List String
  indeg : String → Int
  layer : List RModule := []
  nextReady : List String := []

/-- The inner `for dep in graph.get(name, [])` body: decrement the
dependent's indegree and collect it into `next_ready` when it reaches 0. -/
def decStep (st : PassSt) (dep : String) : PassSt :=
  let v := st.indeg dep - 1
  { st with
    indeg := fun x => if x = dep then v else st.indeg x,
    nextReady := if v = 0 then st.nextReady ++ [dep] else st.nextReady }

/-- The `for name in ready` body: skip visited names, otherwise mark
visited, append the named module to the current layer, and decrement its
dependents. -/
def processName (modules : List RModule) (st : PassSt) (n : String) : PassSt :=
  if n ∈ st.visited then st
  else
    let st1 :=
      { st with
        visited := st.visited ++ [n],
        layer := st.layer ++ ((activeModules modules).find? (fun m => m.name == n)).toList }
    (dependentsOf modules n).foldl decStep st1

/-- One pass of the outer loop over the current `ready` list. -/
def runPass (modules : List RModule) (ready : List String) (visited : List String)
    (indeg : String → Int) : PassSt :=
  ready.foldl (processName modules) { visited := visited, indeg := indeg }

/-- The whole-loop state: `visited`, `indegree`, the layers built so far and
the `ready` list for the next pass. -/
structure KahnSt where
  visited : List String
  indeg : String → Int
  layers : List (List RModule) := []
  ready : List String

/-- The `while ready:` loop, fuel-indexed (each pass with a nonempty
`ready` grows `visited`, so `activeModules.length + 1` fuel always reaches
the empty-`ready` fixpoint; this is proved below and the top-level function
supplies that fuel). -/
def kahnLoop (modules : List RModule) : Nat → KahnSt → KahnSt
  | 0, st => st
  | fuel + 1, st =>
    if st.ready.isEmpty then st
    else
      let p := runPass modules st.ready st.visited st.indeg
      kahnLoop modules fuel
        { visited := p.visited, indeg := p.indeg,
          layers := if p.layer.isEmpty then st.layers else st.layers ++ [p.layer],
          ready := p.nextReady }

/-- The loop's entry state: `indegree` holds each (enabled) name's filtered
dependency count, `ready` the zero-indegree names in declaration order. -/
def kahnInit (modules : List RModule) : KahnSt :=
  { visited := [],
    indeg := fun n => ((depsOfName modules n).length : Int),
    ready := (activeNames modules).filter
      (fun n => decide ((depsOfName modules n).length = 0)) }

/-- The loop's exit state (the supplied fuel provably reaches the
empty-`ready` fixpoint). -/
def kahnFinal (modules : List RModule) : KahnSt :=
  kahnLoop modules ((activeModules modules).length + 1) (kahnInit modules)

/-- `_resolve_module_layers(modules, log)`: build the filtered dependency
maps, run Kahn's algorithm, and fall back to one-module-per-layer in
declaration order when some enabled module was never placed. -/
def resolve_module_layers (modules : List RModule) : List (List RModule) :=
  if (kahnFinal modules).visited.length ≠ (activeModules modules).length then
    (activeModules modules).map (fun m => [m])
  else (kahnFinal modules).layers

/-- The (filtered) dependency edge relation: `DepRel modules d n` holds when
enabled module `n` depends on enabled module `d`. -/
def DepRel (modules : List RModule) (d n : String) : Prop :=
  n ∈ activeNames modules ∧ d ∈ depsOfName modules n

/-- The filtered dependency graph is acyclic, stated as the existence of a
topological rank (equivalent, for a finite graph, to having no directed
cycle). -/
def DepsAcyclic (modules : List RModule) : Prop :=
  ∃ rank : String → Nat, ∀ d n, DepRel modules d n → rank d < rank n

/-- A directed dependency cycle: a nonempty list of names, each depending
on the next, whose last element depends on the first. -/
def DepCycle (modules : List RModule) : List String → Prop
  | [] => False
  | n :: rest =>
    List.Chain (fun a b => DepRel modules b a) n rest ∧
      DepRel modules n ((n :: rest).getLast (by simp))

/-- The index of the layer containing the module named `n`. -/
def layerIdxOf (layers : List (List RModule)) (n : String) : Nat :=
  layers.findIdx (fun l => decide (n ∈ l.map (·.name)))

/-- The queue-loop invariant: the first-enqueue trace is exactly the probe
trace followed by the pending queue, it never repeats, and the `seen` set is
exactly the set of probed targets (in probe order). -/
def QInv (st : QState) : Prop :=
  st.arrivals = st.probes ++ st.queue ∧ st.arrivals.Nodup ∧ st.seen = st.probes

/-- A concrete queue environment: probing `http://a.test` yields a 200 with
content, and its content-analysis task discovers the same endpoint spelled
two ways (`http://b.test/` and `http://b.test`); everything else is a bare
404 discovering nothing. -/
def envPair : QEnv :=
  { probeRes := fun t =>
      if t = "http://a.test" then { status_code := some 200, content_length := some 5 }
      else { status_code := some 404 },
    taskEps := fun t ty =>
      if t = "http://a.test" ∧ ty = "JS_ANALYSIS" then
        ["http://b.test/", "http://b.test"]
      else [] }

/-- The number of dependencies of `n` not yet visited (with multiplicity):
the quantity the mutable `indegree` dict tracks. -/
def remDeps (modules : List RModule) (V : List String) (n : String) : Nat :=
  ((depsOfName modules n).filter (fun d => decide (d ∉ V))).length

/-- Layer soundness: every module of every layer has all its (filtered)
dependencies inside the accumulated names of strictly earlier layers. -/
def LayerOrder (modules : List RModule) : List String → List (List RModule) → Prop
  | _, [] => True
  | acc, l :: ls =>
    (∀ m ∈ l, ∀ d ∈ depsOfName modules m.name, d ∈ acc) ∧
      LayerOrder modules (acc ++ l.map (·.name)) ls

/-- The loop invariant of `_resolve_module_layers`' Kahn loop, at the top of
each `while ready:` iteration. -/
structure KahnInv (modules : List RModule) (st : KahnSt) : Prop where
  vNodup : st.visited.Nodup
  vSub : ∀ x ∈ st.visited, x ∈ activeNames modules
  vClosed : ∀ x ∈ st.visited, remDeps modules st.visited x = 0
  indegEq : ∀ x, st.indeg x = (remDeps modules st.visited x : Int)
  rNodup : st.ready.Nodup
  rSub : ∀ x ∈ st.ready, x ∈ activeNames modules
  rFresh : ∀ x ∈ st.ready, x ∉ st.visited
  rZero : ∀ x ∈ st.ready, remDeps modules st.visited x = 0
  rComplete : ∀ x ∈ activeNames modules, x ∉ st.visited → x ∉ st.ready →
      remDeps modules st.visited x ≠ 0
  flatEq : st.layers.flatten.map (·.name) = st.visited
  ordered : LayerOrder modules [] st.layers

/-- A concrete acyclic module set: `b` depends on `a`. -/
def modsAcyclic : List RModule :=
  [{ name := "a" }, { name := "b", depends_on := ["a"] }]

/-- A concrete cyclic module set: `a` and `b` depend on each other. -/
def modsCyclic : List RModule :=
  [{ name := "a", depends_on := ["b"] }, { name := "b", depends_on := ["a"] }]

/-! ## Theorems -/

/-- Claim C9: `DecisionEngine.evaluate` applies its rules independently:
status 403 yields a bypass task in the returned list; status 200 with
positive content length yields both a content-analysis (`JS_ANALYSIS`) task
and a `FUZZING` task. -/
theorem decision_engine_rules_fire (pr : ProbeResultM) :
    (pr.status_code = some 403 →
      "403_BYPASS" ∈ (decisionEvaluate pr).map (·.task_type)) ∧
    (pr.status_code = some 200 → 0 < pr.content_length.getD 0 →
      "JS_ANALYSIS" ∈ (decisionEvaluate pr).map (·.task_type) ∧
        "FUZZING" ∈ (decisionEvaluate pr).map (·.task_type)) := by
  constructor
  · intro h
    simp [decisionEvaluate, h]
  · intro h hc
    simp [decisionEvaluate, h, hc]

/-- Witness for C9 at concrete probe results (403, and 200 with content
length 120). -/
theorem decision_engine_rules_fire_witness :
    "403_BYPASS" ∈
      (decisionEvaluate { status_code := some 403 }).map (·.task_type) ∧
    "JS_ANALYSIS" ∈
      (decisionEvaluate { status_code := some 200, content_length := some 120 }).map
        (·.task_type) ∧
    "FUZZING" ∈
      (decisionEvaluate { status_code := some 200, content_length := some 120 }).map
        (·.task_type) :=
  ⟨(decision_engine_rules_fire _).1 rfl,
    ((decision_engine_rules_fire _).2 rfl (by decide)).1,
    ((decision_engine_rules_fire _).2 rfl (by decide)).2⟩

/-- Claim C10: `emit` with an empty category or an empty value returns
immediately, leaving the whole context state (dedup sets, log, observer
trace, configuration) untouched. -/
theorem emit_empty_is_noop (st : EmitState) (category value : String)
    (h : category = "" ∨ value = "") : emit st category value = st := by
  unfold emit
  rw [if_pos h]

/-- Witness for C10: emitting with an empty category is the identity on a
concrete populated state. -/
theorem emit_empty_is_noop_witness :
    (("" : String) = "" ∨ ("x" : String) = "") ∧
      emit { progress_seen := [("sub", ["a"])], event_path := some "ev" } "" "x" =
        { progress_seen := [("sub", ["a"])], event_path := some "ev" } :=
  ⟨Or.inl rfl, emit_empty_is_noop _ "" "x" (Or.inl rfl)⟩

/-- Claim C8 counterexample: the claim quantifies over every jitter `j`, but
at `j = 0` (and at every `j ≤ 0`) the computed delay equals the exponential
base exactly, so the claimed strict bound `delay < base + j` fails. -/
theorem compute_backoff_strict_bound_fails :
    computeBackoff 1 1 0 0 = 1 ∧
      ¬ computeBackoff 1 1 0 0 < 1 * 2 ^ (1 - 1) + 0 := by
  constructor <;> norm_num [computeBackoff]

/-- Claim C8 (amended): for attempt `k ≥ 1` and uniform draw `r ∈ [0, 1)`,
the delay is at least `b * 2 ^ (k - 1)`; it is strictly below
`b * 2 ^ (k - 1) + j` provided `j > 0`, while for `j ≤ 0` the jitter term is
clamped away and the delay equals the base exactly. -/
theorem compute_backoff_bounds (k : Nat) (b j r : ℚ) (hk : 1 ≤ k)
    (hr0 : 0 ≤ r) (hr1 : r < 1) :
    b * 2 ^ (k - 1) ≤ computeBackoff k b j r ∧
    (0 < j → computeBackoff k b j r < b * 2 ^ (k - 1) + j) ∧
    (j ≤ 0 → computeBackoff k b j r = b * 2 ^ (k - 1)) := by
  unfold computeBackoff
  refine ⟨?_, ?_, ?_⟩
  · have h := mul_nonneg (le_max_left (0 : ℚ) j) hr0
    linarith
  · intro hj
    rw [max_eq_right hj.le]
    have h := mul_lt_mul_of_pos_left hr1 hj
    linarith
  · intro hj
    rw [max_eq_left (by linarith)]
    ring

/-- Witness for the amended C8 at `k = 1`, `b = 1`, `j = 1`, `r = 0`. -/
theorem compute_backoff_bounds_witness :
    (1 : ℚ) * 2 ^ (1 - 1) ≤ computeBackoff 1 1 1 0 ∧
    ((0 : ℚ) < 1 → computeBackoff 1 1 1 0 < 1 * 2 ^ (1 - 1) + 1) ∧
    ((1 : ℚ) ≤ 0 → computeBackoff 1 1 1 0 = 1 * 2 ^ (1 - 1)) :=
  compute_backoff_bounds 1 1 1 0 (by norm_num) (by norm_num) (by norm_num)

/-- Helper: the clamp branch of `_retry_after_delay`. -/
theorem retryAfterDelay_of_parse (headers : List (String × String))
    (attempt : Nat) (b j r : ℚ) (ra : String) (v : ℚ)
    (h1 : headers.lookup "Retry-After" = some ra) (h2 : ra ≠ "")
    (h3 : pyFloatQ? ra = some v) :
    retryAfterDelay headers attempt b j r = max v 0.1 := by
  unfold retryAfterDelay
  rw [h1]
  simp [h2, h3]

/-- Claim C7 counterexample: a `Retry-After` header of `"-5"` parses as a
negative number; the claim says the backoff formula must be used, but the
code returns `max(-5, 0.1) = 0.1` (here the backoff formula would give
`1/2`). -/
theorem retry_after_negative_is_clamped_not_backoff :
    retryAfterDelay [("Retry-After", "-5")] 1 (1 / 2) 0 0 = 1 / 10 ∧
    computeBackoff 1 (1 / 2) 0 0 = 1 / 2 ∧ (1 / 10 : ℚ) ≠ 1 / 2 := by
  refine ⟨?_, by norm_num [computeBackoff], by norm_num⟩
  rw [retryAfterDelay_of_parse [("Retry-After", "-5")] 1 (1 / 2) 0 0 "-5" (-5)
    rfl (by decide) (by rfl)]
  rw [max_eq_right (by norm_num)]
  norm_num

/-- Claim C7 (amended): the delay is `max(v, 0.1)` — the header value
clamped below at `0.1` — whenever the `Retry-After` header is present,
nonempty, and parses as a float `v` of either sign; the backoff formula is
used exactly when the header is absent, empty, or unparseable. -/
theorem retry_after_delay_cases (headers : List (String × String))
    (attempt : Nat) (b j r : ℚ) :
    (headers.lookup "Retry-After" = none →
      retryAfterDelay headers attempt b j r = computeBackoff attempt b j r) ∧
    (∀ ra, headers.lookup "Retry-After" = some ra →
      ra = "" ∨ pyFloatQ? ra = none →
      retryAfterDelay headers attempt b j r = computeBackoff attempt b j r) ∧
    (∀ ra v, headers.lookup "Retry-After" = some ra → ra ≠ "" →
      pyFloatQ? ra = some v →
      retryAfterDelay headers attempt b j r = max v 0.1) := by
  unfold retryAfterDelay
  refine ⟨fun h => by rw [h], ?_, ?_⟩
  · intro ra hra hcase
    rw [hra]
    rcases hcase with h | h
    · simp [h]
    · rcases eq_or_ne ra "" with he | he
      · simp [he]
      · simp [he, h]
  · intro ra v hra hne hv
    rw [hra]
    simp [hne, hv]

/-- Witness for the amended C7: header `"3"` parses to 3 and is returned
clamped (`max 3 0.1 = 3`); an absent header falls back to the backoff
formula. -/
theorem retry_after_delay_cases_witness :
    retryAfterDelay [("Retry-After", "3")] 2 1 0 0 = max 3 0.1 ∧
    retryAfterDelay [] 2 1 0 0 = computeBackoff 2 1 0 0 :=
  ⟨(retry_after_delay_cases [("Retry-After", "3")] 2 1 0 0).2.2 "3" 3 rfl
      (by decide) (by rfl),
    (retry_after_delay_cases [] 2 1 0 0).1 rfl⟩

/-- Claim C1 counterexample: one attempt returning HTTP 429 with throttling
enabled.  The claim says the last 429 response is returned; the code's 429
branch re-enters the loop even on the final attempt, so the loop exits with
no stored exception and raises `RuntimeError("HTTP request failed with no
response")` despite having received an HTTP response. -/
theorem request_429_exhaustion_raises :
    requestLoop true [AttemptOutcome.resp { status := 429 }] none =
      RequestOutcome.raisedNoResponse ∧
    RequestOutcome.raisedNoResponse ≠ RequestOutcome.ok { status := 429 } :=
  ⟨by decide, by decide⟩

/-- Helper: the exception branch threads the last exception through, and an
all-exception run re-raises the final one. -/
theorem requestLoop_all_exc (throttle : Bool) (es : List String) (e : String) :
    ∀ acc : Option String,
      requestLoop throttle ((es ++ [e]).map AttemptOutcome.exc) acc =
        RequestOutcome.raisedLast e := by
  induction es with
  | nil => intro acc; rfl
  | cons x xs ih => intro acc; exact ih (some x)

/-- Helper: an all-5xx run whose final attempt is also 5xx returns the final
response. -/
theorem requestLoop_all_5xx (throttle : Bool) (l : List MResp) (r : MResp)
    (hl : ∀ x ∈ l, 500 ≤ x.status) (hr : 500 ≤ r.status) :
    requestLoop throttle ((l ++ [r]).map AttemptOutcome.resp) none =
      RequestOutcome.ok r := by
  induction l with
  | nil =>
    show requestLoop throttle [AttemptOutcome.resp r] none = RequestOutcome.ok r
    unfold requestLoop
    rw [if_neg (by simp), if_neg (by omega)]
  | cons x xs ih =>
    have hx : 500 ≤ x.status := hl x (by simp)
    show requestLoop throttle
        (AttemptOutcome.resp x :: (xs ++ [r]).map AttemptOutcome.resp) none =
      RequestOutcome.ok r
    unfold requestLoop
    rw [if_pos ⟨hx, by simp⟩]
    exact ih (fun y hy => hl y (List.mem_cons_of_mem x hy))

/-- Helper: an all-429 run with throttling enabled falls off the end of the
loop and, with no stored exception, raises the "no response" error. -/
theorem requestLoop_all_429 (l : List MResp) (hl : ∀ x ∈ l, x.status = 429) :
    requestLoop true (l.map AttemptOutcome.resp) none =
      RequestOutcome.raisedNoResponse := by
  induction l with
  | nil => rfl
  | cons x xs ih =>
    have hx : x.status = 429 := hl x (by simp)
    show requestLoop true (AttemptOutcome.resp x :: xs.map AttemptOutcome.resp) none =
      RequestOutcome.raisedNoResponse
    unfold requestLoop
    rw [if_neg (by omega), if_pos ⟨hx, rfl⟩]
    exact ih (fun y hy => hl y (List.mem_cons_of_mem x hy))

/-- Claim C1 (amended): an exhaustion of attempts on 5xx responses returns
the last response; an exhaustion where every response was a throttled 429
ends the loop with no stored exception and raises the
`"HTTP request failed with no response"` error even though HTTP responses
were received; the last transport exception is re-raised when every attempt
failed at transport level. -/
theorem request_exhaustion_semantics (throttle : Bool) :
    (∀ (l : List MResp) (r : MResp), (∀ x ∈ l, 500 ≤ x.status) →
      500 ≤ r.status →
      requestLoop throttle ((l ++ [r]).map AttemptOutcome.resp) none =
        RequestOutcome.ok r) ∧
    (∀ l : List MResp, (∀ x ∈ l, x.status = 429) →
      requestLoop true (l.map AttemptOutcome.resp) none =
        RequestOutcome.raisedNoResponse) ∧
    (∀ (es : List String) (e : String),
      requestLoop throttle ((es ++ [e]).map AttemptOutcome.exc) none =
        RequestOutcome.raisedLast e) :=
  ⟨fun l r hl hr => requestLoop_all_5xx throttle l r hl hr,
    fun l hl => requestLoop_all_429 l hl,
    fun es e => requestLoop_all_exc throttle es e none⟩

/-- Witness for the amended C1: two 503 responses return the second one; two
throttled 429 responses raise the "no response" error; two transport
failures re-raise the second. -/
theorem request_exhaustion_semantics_witness :
    requestLoop true
        ((([{ status := 503 }] : List MResp) ++ ([{ status := 500 }] : List MResp)).map
          AttemptOutcome.resp) none =
      RequestOutcome.ok { status := 500 } ∧
    requestLoop true
        (([{ status := 429 }, { status := 429 }] : List MResp).map
          AttemptOutcome.resp) none =
      RequestOutcome.raisedNoResponse ∧
    requestLoop true ((["boom"] ++ ["bust"]).map AttemptOutcome.exc) none =
      RequestOutcome.raisedLast "bust" :=
  ⟨(request_exhaustion_semantics true).1 [{ status := 503 }] { status := 500 }
      (by decide) (by decide),
    (request_exhaustion_semantics true).2.1 [{ status := 429 }, { status := 429 }]
      (by decide),
    (request_exhaustion_semantics true).2.2 ["boom"] "bust"⟩

/-- Helper: adding a value to a category's seen-set appends it to that
category's list. -/
theorem seenOf_addSeen_self (ps : List (String × List String)) (cat v : String) :
    seenOf (addSeen ps cat v) cat = seenOf ps cat ++ [v] := by
  induction ps with
  | nil => simp [addSeen, seenOf, List.lookup]
  | cons p rest ih =>
    obtain ⟨c, vs⟩ := p
    by_cases h : c = cat
    · subst h
      simp [addSeen, seenOf, List.lookup]
    · have hbeq : (cat == c) = false := by
        simp [Ne.symm h]
      simp only [addSeen, if_neg h, seenOf, List.lookup, hbeq]
      exact ih

/-- Helper: `emit` never changes the event-path configuration or the
observer registration. -/
theorem emit_preserves_config (st : EmitState) (category value : String) :
    (emit st category value).event_path = st.event_path ∧
      (emit st category value).has_progress_cb = st.has_progress_cb := by
  unfold emit
  dsimp only
  split
  · exact ⟨rfl, rfl⟩
  · split
    · exact ⟨rfl, rfl⟩
    · split <;> split <;> simp

/-- Helper: `emit` on an already-seen `(category, value)` pair is a no-op. -/
theorem emit_dup (st : EmitState) (category value : String)
    (hs : value ∈ seenOf st.progress_seen (pyStrip (pyLower category))) :
    emit st category value = st := by
  unfold emit
  dsimp only
  split <;> rfl

/-- Helper: the effect of a first-occurrence `emit` on the dedup state, the
event log, and the observer trace. -/
theorem emit_fresh (st : EmitState) (category value : String)
    (hc : category ≠ "") (hv : value ≠ "")
    (hs : value ∉ seenOf st.progress_seen (pyStrip (pyLower category))) :
    (emit st category value).progress_seen =
      addSeen st.progress_seen (pyStrip (pyLower category)) value ∧
    (eventConfigured st = true →
      (emit st category value).event_log =
        st.event_log ++ [(pyStrip (pyLower category), value)]) ∧
    (st.has_progress_cb = true →
      (emit st category value).cb_calls =
        st.cb_calls ++ [(pyStrip (pyLower category), value)]) := by
  unfold emit
  dsimp only
  rw [if_neg (not_or.mpr ⟨hc, hv⟩), if_neg hs]
  have hcfg : eventConfigured { st with
      progress_seen := addSeen st.progress_seen (pyStrip (pyLower category)) value } =
      eventConfigured st := by
    simp [eventConfigured]
  refine ⟨?_, ?_, ?_⟩
  · rw [hcfg]
    split <;> split <;> rfl
  · intro h
    rw [hcfg, if_pos h]
    split <;> rfl
  · intro h
    rw [hcfg]
    split <;> simp [h]

/-- Helper: a run of already-seen emissions is the identity. -/
theorem emitAll_dup (st : EmitState) (c v : String)
    (l : List (String × String))
    (hall : ∀ p ∈ l, pyStrip (pyLower p.1) = c ∧ p.2 = v)
    (hs : v ∈ seenOf st.progress_seen c) :
    emitAll st l = st := by
  induction l with
  | nil => rfl
  | cons p rest ih =>
    obtain ⟨h1, h2⟩ := hall p (by simp)
    have hst : emit st p.1 p.2 = st := by
      apply emit_dup
      rw [h1, h2]
      exact hs
    show emitAll (emit st p.1 p.2) rest = st
    rw [hst]
    exact ih (fun q hq => hall q (List.mem_cons_of_mem p hq))

/-- Claim C4: emitting the same `(category, value)` pair `N ≥ 1` times —
with category comparison performed after lowercasing and trimming — fires
the event-log write and the progress observer exactly once, on the first
occurrence, provided the event log is configured and an observer is
registered. -/
theorem emit_dedup_exactly_once (st : EmitState) (c v : String)
    (l : List (String × String)) (hl : l ≠ [])
    (hall : ∀ p ∈ l, p.1 ≠ "" ∧ p.2 ≠ "" ∧ pyStrip (pyLower p.1) = c ∧ p.2 = v)
    (hfresh : v ∉ seenOf st.progress_seen c)
    (hcfg : eventConfigured st = true) (hcb : st.has_progress_cb = true) :
    (emitAll st l).event_log = st.event_log ++ [(c, v)] ∧
    (emitAll st l).cb_calls = st.cb_calls ++ [(c, v)] := by
  obtain ⟨p, rest, rfl⟩ : ∃ p rest, l = p :: rest := by
    cases l with
    | nil => exact absurd rfl hl
    | cons p rest => exact ⟨p, rest, rfl⟩
  obtain ⟨hc1, hv1, hn1, hv2⟩ := hall p (by simp)
  have hfresh1 : p.2 ∉ seenOf st.progress_seen (pyStrip (pyLower p.1)) := by
    rw [hn1, hv2]
    exact hfresh
  obtain ⟨hseen, hlog, hcalls⟩ := emit_fresh st p.1 p.2 hc1 hv1 hfresh1
  have hsdone : v ∈ seenOf (emit st p.1 p.2).progress_seen c := by
    rw [hseen, hn1, hv2, seenOf_addSeen_self]
    exact List.mem_append_right _ (by simp)
  have hrest : emitAll (emit st p.1 p.2) rest = emit st p.1 p.2 :=
    emitAll_dup _ c v rest
      (fun q hq => ⟨(hall q (List.mem_cons_of_mem p hq)).2.2.1,
        (hall q (List.mem_cons_of_mem p hq)).2.2.2⟩)
      hsdone
  show (emitAll (emit st p.1 p.2) rest).event_log = _ ∧
    (emitAll (emit st p.1 p.2) rest).cb_calls = _
  rw [hrest]
  constructor
  · rw [hlog hcfg, hn1, hv2]
  · rw [hcalls hcb, hn1, hv2]

/-- Witness for C4: two spellings of the same category emit the same value;
exactly one log record and one observer call result. -/
theorem emit_dedup_exactly_once_witness :
    (emitAll { progress_seen := [], event_path := some "events.jsonl" }
        [("Sub", "x.test"), (" SUB ", "x.test")]).event_log =
      [("sub", "x.test")] ∧
    (emitAll { progress_seen := [], event_path := some "events.jsonl" }
        [("Sub", "x.test"), (" SUB ", "x.test")]).cb_calls =
      [("sub", "x.test")] :=
  emit_dedup_exactly_once { progress_seen := [], event_path := some "events.jsonl" }
    "sub" "x.test" [("Sub", "x.test"), (" SUB ", "x.test")]
    (by decide) (by decide) (by decide) (by decide) (by decide)

/-- Helper: one endpoint-flush step preserves the queue invariant. -/
theorem enqueueEps_inv (eps : List String) (st : QState) (h : QInv st) :
    QInv (enqueueEps st eps) := by
  induction eps generalizing st with
  | nil => exact h
  | cons ep rest ih =>
    show QInv (enqueueEps (if ep ∉ st.seen ∧ ep ∉ st.queue then
      { st with queue := st.queue ++ [ep], arrivals := st.arrivals ++ [ep] }
      else st) rest)
    by_cases hc : ep ∉ st.seen ∧ ep ∉ st.queue
    · rw [if_pos hc]
      apply ih
      obtain ⟨h1, h2, h3⟩ := h
      refine ⟨?_, ?_, h3⟩
      · show st.arrivals ++ [ep] = st.probes ++ (st.queue ++ [ep])
        rw [h1, List.append_assoc]
      · show (st.arrivals ++ [ep]).Nodup
        have hep : ep ∉ st.arrivals := by
          rw [h1]
          intro hmem
          rcases List.mem_append.mp hmem with hp | hq
          · exact hc.1 (h3 ▸ hp)
          · exact hc.2 hq
        simp [List.nodup_append, h2, hep]
    · rw [if_neg hc]
      exact ih st h

/-- Helper: executing the tasks of one probed target preserves the queue
invariant. -/
theorem tasksFold_inv (env : QEnv) (t : String) (tasks : List ScanTaskM)
    (st : QState) (h : QInv st) :
    QInv (tasks.foldl (fun s task => enqueueEps s (execTaskEps env t task)) st) := by
  induction tasks generalizing st with
  | nil => exact h
  | cons task rest ih => exact ih _ (enqueueEps_inv _ st h)

/-- Helper: the whole loop body for a fresh popped target preserves the
queue invariant. -/
theorem queueStep_inv (env : QEnv) (st : QState) (t : String) (rest : List String)
    (hq : st.queue = t :: rest) (h : QInv st) :
    QInv (queueStep env st t rest) := by
  obtain ⟨h1, h2, h3⟩ := h
  apply tasksFold_inv
  refine ⟨?_, h2, ?_⟩
  · show st.arrivals = (st.probes ++ [t]) ++ rest
    rw [h1, hq, List.append_assoc]
    rfl
  · show st.seen ++ [t] = st.probes ++ [t]
    rw [h3]

/-- Helper: the queue loop preserves the invariant for any fuel. -/
theorem runQueueLoop_inv (env : QEnv) (fuel : Nat) (st : QState) (h : QInv st) :
    QInv (runQueueLoop env fuel st) := by
  induction fuel generalizing st with
  | zero => exact h
  | succ n ih =>
    show QInv (match st.queue with
      | [] => st
      | t :: rest =>
        if t ∈ st.seen then runQueueLoop env n { st with queue := rest }
        else runQueueLoop env n (queueStep env st t rest))
    cases hq : st.queue with
    | nil => exact h
    | cons t rest =>
      dsimp only
      by_cases ht : t ∈ st.seen
      · exfalso
        obtain ⟨h1, h2, h3⟩ := h
        rw [hq] at h1
        rw [h1] at h2
        have hdisj := (List.nodup_append.mp h2).2.2
        exact hdisj (h3 ▸ ht) (by simp)
      · rw [if_neg ht]
        exact ih _ (queueStep_inv env st t rest hq h)

/-- Helper: endpoint flushes only ever append to the arrival trace. -/
theorem enqueueEps_arrivals (eps : List String) (st : QState) :
    ∃ d, (enqueueEps st eps).arrivals = st.arrivals ++ d := by
  induction eps generalizing st with
  | nil => exact ⟨[], by simp [enqueueEps]⟩
  | cons ep rest ih =>
    show ∃ d, (enqueueEps (if ep ∉ st.seen ∧ ep ∉ st.queue then
      { st with queue := st.queue ++ [ep], arrivals := st.arrivals ++ [ep] }
      else st) rest).arrivals = st.arrivals ++ d
    by_cases hc : ep ∉ st.seen ∧ ep ∉ st.queue
    · rw [if_pos hc]
      obtain ⟨d, hd⟩ :=
        ih { st with queue := st.queue ++ [ep], arrivals := st.arrivals ++ [ep] }
      exact ⟨[ep] ++ d, by rw [hd]; simp⟩
    · rw [if_neg hc]
      exact ih st

/-- Helper: the queue loop only ever appends to the arrival trace. -/
theorem runQueueLoop_arrivals (env : QEnv) (fuel : Nat) (st : QState) :
    ∃ d, (runQueueLoop env fuel st).arrivals = st.arrivals ++ d := by
  induction fuel generalizing st with
  | zero => exact ⟨[], by simp [runQueueLoop]⟩
  | succ n ih =>
    show ∃ d, (match st.queue with
      | [] => st
      | t :: rest =>
        if t ∈ st.seen then runQueueLoop env n { st with queue := rest }
        else runQueueLoop env n (queueStep env st t rest)).arrivals =
      st.arrivals ++ d
    cases hq : st.queue with
    | nil => exact ⟨[], by simp⟩
    | cons t rest =>
      dsimp only
      by_cases ht : t ∈ st.seen
      · rw [if_pos ht]
        exact ih { st with queue := rest }
      · rw [if_neg ht]
        have harr : ∃ d0, (queueStep env st t rest).arrivals = st.arrivals ++ d0 := by
          unfold queueStep
          have hfold : ∀ (tasks : List ScanTaskM) (s : QState),
              ∃ d, (tasks.foldl (fun s task => enqueueEps s (execTaskEps env t task)) s).arrivals =
                s.arrivals ++ d := by
            intro tasks
            induction tasks with
            | nil => exact fun s => ⟨[], by simp⟩
            | cons task rtasks ihh =>
              intro s
              obtain ⟨d1, hd1⟩ := enqueueEps_arrivals (execTaskEps env t task) s
              obtain ⟨d2, hd2⟩ :=
                ihh (enqueueEps s (execTaskEps env t task))
              exact ⟨d1 ++ d2, by rw [List.foldl_cons, hd2, hd1, List.append_assoc]⟩
          obtain ⟨d0, hd0⟩ := hfold (decisionEvaluate (env.probeRes t))
            { st with queue := rest, seen := st.seen ++ [t], probes := st.probes ++ [t] }
          exact ⟨d0, hd0⟩
        obtain ⟨d0, hd0⟩ := harr
        obtain ⟨d1, hd1⟩ := ih (queueStep env st t rest)
        exact ⟨d0 ++ d1, by rw [hd1, hd0, List.append_assoc]⟩

/-- Claim C6 counterexample: discovered endpoints are enqueued verbatim (not
normalized), so two spellings of the same normalized URL are each probed
once: the normalized target `http://b.test` is probed twice in this run,
refuting "each distinct normalized target URL at most once". -/
theorem queue_probes_normalized_target_twice :
    (runTaskQueue envPair 10 ["http://a.test"]).probes =
      ["http://a.test", "http://b.test/", "http://b.test"] ∧
    ((runTaskQueue envPair 10 ["http://a.test"]).probes.map
        normalizeTarget).count "http://b.test" = 2 := by
  constructor <;> decide

/-- Claim C6 (amended): targets are deduplicated and FIFO-ordered by their
exact queued string (seeds are normalized on entry; discovered endpoints
are enqueued verbatim): whenever the queue empties within the fuel bound,
the probe trace equals the first-enqueue trace — every target that was ever
enqueued is probed exactly once, in enqueue order, seeds first — and the
loop is at a fixpoint once the queue is empty. -/
theorem run_task_queue_fifo_once (env : QEnv) (fuel : Nat) (seeds : List String)
    (hnd : (seeds.map normalizeTarget).Nodup)
    (hdone : (runTaskQueue env fuel seeds).queue = []) :
    (runTaskQueue env fuel seeds).probes = (runTaskQueue env fuel seeds).arrivals ∧
    (runTaskQueue env fuel seeds).probes.Nodup ∧
    (∃ discovered, (runTaskQueue env fuel seeds).arrivals =
      seeds.map normalizeTarget ++ discovered) ∧
    (∀ st : QState, st.queue = [] → runQueueLoop env fuel st = st) := by
  have h0 : QInv (initQState seeds) := ⟨rfl, hnd, rfl⟩
  have hinv : QInv (runTaskQueue env fuel seeds) :=
    runQueueLoop_inv env fuel (initQState seeds) h0
  obtain ⟨h1, h2, h3⟩ := hinv
  rw [hdone, List.append_nil] at h1
  refine ⟨h1.symm, by rw [h1] at h2; exact h2, ?_, ?_⟩
  · obtain ⟨d, hd⟩ := runQueueLoop_arrivals env fuel (initQState seeds)
    exact ⟨d, hd⟩
  · intro st hst
    cases fuel with
    | zero => rfl
    | succ n =>
      show (match st.queue with
        | [] => st
        | t :: rest =>
          if t ∈ st.seen then runQueueLoop env n { st with queue := rest }
          else runQueueLoop env n (queueStep env st t rest)) = st
      rw [hst]

/-- Witness for the amended C6: the two-spellings environment empties its
queue within 10 iterations; the probe trace equals the arrival trace, is
duplicate-free, and starts with the normalized seed. -/
theorem run_task_queue_fifo_once_witness :
    (runTaskQueue envPair 10 ["http://a.test"]).probes =
      (runTaskQueue envPair 10 ["http://a.test"]).arrivals ∧
    (runTaskQueue envPair 10 ["http://a.test"]).probes.Nodup ∧
    (∃ discovered, (runTaskQueue envPair 10 ["http://a.test"]).arrivals =
      ["http://a.test"].map normalizeTarget ++ discovered) ∧
    (∀ st : QState, st.queue = [] → runQueueLoop envPair 10 st = st) :=
  run_task_queue_fifo_once envPair 10 ["http://a.test"] (by decide) (by decide)

/-- Helper: the digit accumulator ignores fuel beyond the argument. -/
theorem natDigitsRevAux_zero (fuel : Nat) : natDigitsRevAux fuel 0 = [] := by
  cases fuel <;> rfl

/-- Helper: fuel congruence for the digit accumulator. -/
theorem natDigitsRevAux_congr :
    ∀ f1 f2 n : Nat, n ≤ f1 → n ≤ f2 →
      natDigitsRevAux f1 n = natDigitsRevAux f2 n := by
  intro f1
  induction f1 with
  | zero =>
    intro f2 n h1 _
    have hn : n = 0 := Nat.le_zero.mp h1
    subst hn
    rw [natDigitsRevAux_zero, natDigitsRevAux_zero]
  | succ m ih =>
    intro f2 n h1 h2
    by_cases hn : n = 0
    · subst hn
      rw [natDigitsRevAux_zero, natDigitsRevAux_zero]
    · cases f2 with
      | zero => omega
      | succ k =>
        show (if n = 0 then [] else n % 10 :: natDigitsRevAux m (n / 10)) =
          (if n = 0 then [] else n % 10 :: natDigitsRevAux k (n / 10))
        rw [if_neg hn, if_neg hn]
        have hd : n / 10 < n := Nat.div_lt_self (Nat.pos_of_ne_zero hn) (by norm_num)
        rw [ih k (n / 10) (by omega) (by omega)]

/-- Helper: unfolding equation for `natDigitsRev` on a nonzero argument. -/
theorem natDigitsRev_cons (n : Nat) (hn : n ≠ 0) :
    natDigitsRev n = n % 10 :: natDigitsRev (n / 10) := by
  show natDigitsRevAux n n = _
  cases n with
  | zero => exact absurd rfl hn
  | succ m =>
    show (if m + 1 = 0 then [] else (m + 1) % 10 :: natDigitsRevAux m ((m + 1) / 10)) = _
    rw [if_neg hn]
    have hd : (m + 1) / 10 < m + 1 :=
      Nat.div_lt_self (Nat.succ_pos m) (by norm_num)
    rw [natDigitsRevAux_congr m ((m + 1) / 10) ((m + 1) / 10) (by omega) le_rfl]
    rfl

/-- Helper: the decimal digits are a faithful representation. -/
theorem ofDigits_natDigitsRev (n : Nat) :
    Nat.ofDigits 10 (natDigitsRev n) = n := by
  induction n using Nat.strong_induction_on with
  | _ n ih =>
    by_cases hn : n = 0
    · subst hn
      rfl
    · rw [natDigitsRev_cons n hn, Nat.ofDigits_cons,
        ih (n / 10) (Nat.div_lt_self (Nat.pos_of_ne_zero hn) (by norm_num))]
      omega

/-- Helper: every produced digit is below 10. -/
theorem natDigitsRev_lt (n : Nat) : ∀ d ∈ natDigitsRev n, d < 10 := by
  induction n using Nat.strong_induction_on with
  | _ n ih =>
    by_cases hn : n = 0
    · subst hn
      intro d hd
      simp [natDigitsRev, natDigitsRevAux] at hd
    · rw [natDigitsRev_cons n hn]
      intro d hd
      rcases List.mem_cons.mp hd with rfl | hd
      · omega
      · exact ih (n / 10) (Nat.div_lt_self (Nat.pos_of_ne_zero hn) (by norm_num)) d hd

/-- Helper: a nonzero number has at least one digit. -/
theorem natDigitsRev_ne_nil (n : Nat) (hn : n ≠ 0) : natDigitsRev n ≠ [] := by
  rw [natDigitsRev_cons n hn]
  simp

/-- Helper: parsing inverts printing on single digits. -/
theorem digitVal?_digitChar (d : Nat) (hd : d < 10) :
    digitVal? (Nat.digitChar d) = some d := by
  interval_cases d <;> decide

/-- Helper: digit characters are not the minus sign. -/
theorem digitChar_ne_dash (d : Nat) (hd : d < 10) : Nat.digitChar d ≠ '-' := by
  interval_cases d <;> decide

/-- Helper: `mapM` of a left inverse over a mapped list succeeds with the
original list. -/
theorem mapM_map_some {α β : Type} (g : α → β) (f : β → Option α) :
    ∀ l : List α, (∀ a ∈ l, f (g a) = some a) → (l.map g).mapM f = some l := by
  intro l
  induction l with
  | nil => intro _; rfl
  | cons x xs ih =>
    intro h
    rw [List.map_cons, List.mapM_cons, h x (by simp),
      ih (fun a ha => h a (by simp [ha]))]
    rfl

/-- Helper: `digitsVal?` inverts `natKeyStr`. -/
theorem digitsVal?_natKeyStr (n : Nat) : digitsVal? (natKeyStr n).data = some n := by
  by_cases hn : n = 0
  · subst hn
    decide
  · unfold natKeyStr
    rw [if_neg hn]
    show digitsVal? ((natDigitsRev n).map Nat.digitChar).reverse = some n
    unfold digitsVal?
    rw [if_neg (by
      simp only [List.isEmpty_eq_true, List.reverse_eq_nil_iff, List.map_eq_nil_iff]
      intro hfalse
      exact natDigitsRev_ne_nil n hn hfalse)]
    rw [← List.map_reverse]
    rw [mapM_map_some Nat.digitChar digitVal? (natDigitsRev n).reverse
      (fun d hd => digitVal?_digitChar d
        (natDigitsRev_lt n d (List.mem_reverse.mp hd)))]
    simp [List.reverse_reverse, ofDigits_natDigitsRev]

/-- Helper: no character of `natKeyStr` is a minus sign. -/
theorem natKeyStr_head_ne_dash (n : Nat) :
    (natKeyStr n).data.head? ≠ some '-' := by
  by_cases hn : n = 0
  · subst hn
    decide
  · unfold natKeyStr
    rw [if_neg hn]
    show (((natDigitsRev n).map Nat.digitChar).reverse).head? ≠ some '-'
    intro hhead
    have hmem : '-' ∈ ((natDigitsRev n).map Nat.digitChar).reverse :=
      List.mem_of_mem_head? hhead
    rw [List.mem_reverse, List.mem_map] at hmem
    obtain ⟨d, hd, hdc⟩ := hmem
    exact digitChar_ne_dash d (natDigitsRev_lt n d hd) hdc

/-- Helper: the int-key coercion inverts `str(int)` stringification. -/
theorem parseIntKey?_intKeyStr (k : Int) : parseIntKey? (intKeyStr k) = some k := by
  cases k with
  | ofNat n =>
    show parseIntKey? (natKeyStr n) = some (n : Int)
    unfold parseIntKey?
    rw [if_neg (natKeyStr_head_ne_dash n), digitsVal?_natKeyStr]
    rfl
  | negSucc m =>
    show parseIntKey? ("-" ++ natKeyStr (m + 1)) = some (Int.negSucc m)
    unfold parseIntKey?
    have hdata : ("-" ++ natKeyStr (m + 1)).data = '-' :: (natKeyStr (m + 1)).data := by
      rw [String.data_append]
      rfl
    rw [hdata]
    show (digitsVal? (natKeyStr (m + 1)).data).map (fun n => -(n : Int)) = some (Int.negSucc m)
    rw [digitsVal?_natKeyStr]
    show some (-((m + 1 : Nat) : Int)) = some (Int.negSucc m)
    rw [Int.negSucc_eq]
    push_cast
    ring_nf

/-- Helper: `List[str]` validation inverts encoding. -/
theorem jStrList?_roundtrip (l : List String) :
    jStrList? (.jarr (l.map .jstr)) = some l := by
  show (l.map JVal.jstr).mapM jStr? = some l
  exact mapM_map_some _ _ l (fun a _ => rfl)

/-- Helper: `List[int]` validation inverts encoding. -/
theorem jIntList?_roundtrip (l : List Int) :
    jIntList? (.jarr (l.map .jnum)) = some l := by
  show (l.map JVal.jnum).mapM jInt? = some l
  exact mapM_map_some _ _ l (fun a _ => rfl)

/-- Helper: scope validation inverts encoding. -/
theorem validScope?_roundtrip (sc : SnapScope) :
    validScope? (encodeScope sc) = some sc := by
  rfl

/-- Helper: `Dict[int, str]` validation inverts encoding. -/
theorem validBasePorts?_roundtrip (l : List (Int × String)) :
    validBasePorts? (.jobj (l.map (fun kv => (intKeyStr kv.1, .jstr kv.2)))) =
      some l := by
  show (l.map (fun kv => (intKeyStr kv.1, JVal.jstr kv.2))).mapM _ = some l
  apply mapM_map_some
  intro kv _
  show (parseIntKey? (intKeyStr kv.1)).bind _ = some kv
  rw [parseIntKey?_intKeyStr]
  rfl

/-- Helper: `Dict[str, List[int]]` validation inverts encoding. -/
theorem validWebPorts?_roundtrip (l : List (String × List Int)) :
    validWebPorts? (.jobj (l.map (fun kv => (kv.1, .jarr (kv.2.map .jnum))))) =
      some l := by
  show (l.map (fun kv => (kv.1, JVal.jarr (kv.2.map JVal.jnum)))).mapM _ = some l
  apply mapM_map_some
  intro kv _
  show (jIntList? (.jarr (kv.2.map .jnum))).map (fun v => (kv.1, v)) = some kv
  rw [jIntList?_roundtrip]
  rfl

/-- Helper: `Dict[str, float]` validation inverts encoding. -/
theorem validTimings?_roundtrip (l : List (String × Int)) :
    validTimings? (.jobj (l.map (fun kv => (kv.1, .jnum kv.2)))) = some l := by
  show (l.map (fun kv => (kv.1, JVal.jnum kv.2))).mapM _ = some l
  apply mapM_map_some
  intro kv _
  rfl

/-- Helper: full-document validation inverts `save_state` encoding. -/
theorem validState?_roundtrip (s : SnapState) :
    validState?
        [("scope", encodeScope s.scope),
         ("config", .jobj s.config),
         ("subdomains", .jarr (s.subdomains.map .jstr)),
         ("base_ports", .jobj (s.base_ports.map (fun kv => (intKeyStr kv.1, .jstr kv.2)))),
         ("web_ports", .jobj (s.web_ports.map (fun kv => (kv.1, .jarr (kv.2.map .jnum))))),
         ("nuclei_raw", .jstr s.nuclei_raw),
         ("nuclei_urls", .jarr (s.nuclei_urls.map .jstr)),
         ("findings", .jarr (s.findings.map .jstr)),
         ("screenshots", .jarr (s.screenshots.map .jstr)),
         ("extra", .jobj s.extra),
         ("timings", .jobj (s.timings.map (fun kv => (kv.1, .jnum kv.2))))] =
      some s := by
  unfold validState?
  simp [List.lookup, fieldD, validScope?_roundtrip, jStrList?_roundtrip,
    validBasePorts?_roundtrip, validWebPorts?_roundtrip, validTimings?_roundtrip,
    jObj?, jStr?]

/-- Claim C3: the snapshot round-trip holds — `load_state(save_state(ctx))`
reconstructs every accumulator — and byte-level-corrupt or
object-schema-invalid snapshots yield the empty result; but the claim's
"any schema-invalid snapshot returns no-snapshot" is violated by the code:
a snapshot whose JSON parses to a non-object (here `[1, 2]`) reaches
`ReconStateModel(**data)`, which raises `TypeError`, and only
`ValidationError` is caught. -/
theorem snapshot_roundtrip_and_nonmapping_raises :
    (∀ s : SnapState, load_state (save_state s) = LoadResult.loaded s) ∧
    load_state (SnapshotFile.parsed (JVal.jarr [JVal.jnum 1, JVal.jnum 2])) =
      LoadResult.typeError ∧
    load_state SnapshotFile.undecodable = LoadResult.noSnapshot := by
  refine ⟨?_, rfl, rfl⟩
  intro s
  show (match validState? _ with
    | some s' => LoadResult.loaded s'
    | none => LoadResult.noSnapshot) = LoadResult.loaded s
  rw [validState?_roundtrip s]

/-- Helper: excluding one additional unvisited name from a filter removes
exactly its occurrences. -/
theorem filter_out_one (V : List String) (w : String) (hw : w ∉ V) :
    ∀ l : List String,
      (l.filter (fun d => decide (d ∉ V ++ [w]))).length + l.count w =
        (l.filter (fun d => decide (d ∉ V))).length := by
  intro l
  induction l with
  | nil => rfl
  | cons a l ih =>
    rw [List.filter_cons, List.filter_cons, List.count_cons]
    by_cases haw : a = w
    · subst haw
      rw [if_neg (show ¬(decide (a ∉ V ++ [a]) = true) by simp),
        if_pos (show decide (a ∉ V) = true by simpa using hw),
        if_pos (show (a == a) = true by simp)]
      simp only [List.length_cons]
      omega
    · rw [if_neg (show ¬((a == w) = true) by simp [haw])]
      by_cases ha : a ∈ V
      · rw [if_neg (show ¬(decide (a ∉ V ++ [w]) = true) by simp [ha]),
          if_neg (show ¬(decide (a ∉ V) = true) by simp [ha])]
        omega
      · rw [if_pos (show decide (a ∉ V ++ [w]) = true by simp [ha, haw]),
          if_pos (show decide (a ∉ V) = true by simp [ha])]
        simp only [List.length_cons]
        omega

/-- Helper: visiting one new name removes exactly its occurrences from a
node's remaining-dependency count. -/
theorem remDeps_append_one (modules : List RModule) (V : List String) (w : String)
    (hw : w ∉ V) (x : String) :
    remDeps modules (V ++ [w]) x + (depsOfName modules x).count w =
      remDeps modules V x :=
  filter_out_one V w hw (depsOfName modules x)

/-- Helper: filters with a stronger predicate are no longer. -/
theorem length_filter_imp {α : Type} {p q : α → Bool}
    (h : ∀ a, p a = true → q a = true) :
    ∀ l : List α, (l.filter p).length ≤ (l.filter q).length := by
  intro l
  induction l with
  | nil => simp
  | cons a l ih =>
    rw [List.filter_cons, List.filter_cons]
    by_cases hp : p a = true
    · rw [if_pos hp, if_pos (h a hp)]
      simpa using ih
    · rw [if_neg hp]
      by_cases hq : q a = true
      · rw [if_pos hq]
        exact le_trans ih (by simp)
      · rw [if_neg hq]
        exact ih

/-- Helper: remaining-dependency counts only shrink as `visited` grows. -/
theorem remDeps_mono (modules : List RModule) (V W : List String) (x : String) :
    remDeps modules (V ++ W) x ≤ remDeps modules V x := by
  apply length_filter_imp
  intro a ha
  simp only [decide_eq_true_eq] at ha ⊢
  intro hmem
  exact ha (List.mem_append_left W hmem)

/-- Helper: a zero remaining count means every dependency is visited. -/
theorem remDeps_zero_subset (modules : List RModule) (V : List String) (x : String)
    (h : remDeps modules V x = 0) : ∀ d ∈ depsOfName modules x, d ∈ V := by
  intro d hd
  by_contra hdv
  have hmem : d ∈ (depsOfName modules x).filter (fun d => decide (d ∉ V)) :=
    List.mem_filter.mpr ⟨hd, by simpa using hdv⟩
  rw [remDeps, List.length_eq_zero] at h
  rw [h] at hmem
  exact absurd hmem (List.not_mem_nil d)

/-- Helper: a nonzero remaining count exhibits an unvisited dependency. -/
theorem remDeps_pos_exists (modules : List RModule) (V : List String) (x : String)
    (h : remDeps modules V x ≠ 0) : ∃ d ∈ depsOfName modules x, d ∉ V := by
  have hne : (depsOfName modules x).filter (fun d => decide (d ∉ V)) ≠ [] := by
    intro hnil
    rw [remDeps, hnil] at h
    exact h rfl
  obtain ⟨d, hd⟩ := List.exists_mem_of_ne_nil _ hne
  have hmem := List.mem_filter.mp hd
  exact ⟨d, hmem.1, by simpa using hmem.2⟩

/-- Helper: filtered dependencies only name enabled modules. -/
theorem depsOfName_subset_active (modules : List RModule) (x : String) :
    ∀ d ∈ depsOfName modules x, d ∈ activeNames modules := by
  intro d hd
  unfold depsOfName at hd
  split at hd
  · simpa using (List.mem_filter.mp hd).2
  · exact absurd hd (List.not_mem_nil d)

/-- Helper: a name with dependencies belongs to an enabled module. -/
theorem depsOfName_ne_nil_mem (modules : List RModule) (x : String)
    (h : depsOfName modules x ≠ []) : x ∈ activeNames modules := by
  unfold depsOfName at h
  split at h
  next m heq =>
    have hm : m ∈ activeModules modules := List.mem_of_find?_eq_some heq
    have hname : m.name = x := by simpa using List.find?_some heq
    exact hname ▸ List.mem_map_of_mem (·.name) hm
  next => exact absurd rfl h

/-- Helper: `find?` on a name-keyed module list with distinct names returns
the member itself. -/
theorem find?_eq_of_nodup_names (ms : List RModule)
    (hnd : (ms.map (·.name)).Nodup) (m : RModule) (hm : m ∈ ms) :
    ms.find? (fun m' => m'.name == m.name) = some m := by
  induction ms with
  | nil => cases hm
  | cons m0 ms ih =>
    rcases List.mem_cons.mp hm with rfl | hm'
    · exact List.find?_cons_of_pos _ (by simp)
    · have hne : m0.name ≠ m.name := by
        intro he
        have hmem : m.name ∈ ms.map (·.name) := List.mem_map_of_mem (·.name) hm'
        rw [← he] at hmem
        exact (List.nodup_cons.mp (by simpa using hnd)).1 hmem
      rw [List.find?_cons_of_neg _ (by simp [hne])]
      exact ih (List.nodup_cons.mp (by simpa using hnd)).2 hm'

/-- Helper: what `find?` by name returns is a member with that name. -/
theorem find?_name_found (ms : List RModule) (x : String) (m : RModule)
    (h : ms.find? (fun m' => m'.name == x) = some m) : m ∈ ms ∧ m.name = x :=
  ⟨List.mem_of_find?_eq_some h, by simpa using List.find?_some h⟩

/-- Helper: occurrence counting through the reverse-adjacency `flatMap`. -/
theorem count_flatMap_replicate (x n : String) :
    ∀ (ms : List RModule) (f : RModule → List String),
      (ms.map (·.name)).Nodup →
      (ms.flatMap (fun m => List.replicate ((f m).count n) m.name)).count x =
        (match ms.find? (fun m' => m'.name == x) with
         | some m => (f m).count n
         | none => 0) := by
  intro ms
  induction ms with
  | nil => intro f _; rfl
  | cons m0 ms ih =>
    intro f hnd
    rw [List.flatMap_cons, List.count_append, List.count_replicate]
    by_cases hx : m0.name = x
    · rw [List.find?_cons_of_pos _ (by simp [hx])]
      have hzero :
          (ms.flatMap (fun m => List.replicate ((f m).count n) m.name)).count x = 0 := by
        rw [ih f (List.nodup_cons.mp (by simpa using hnd)).2]
        cases hfind : ms.find? (fun m' => m'.name == x) with
        | none => rfl
        | some m1 =>
          obtain ⟨hm1, hname⟩ := find?_name_found ms x m1 hfind
          exfalso
          have hmem : x ∈ ms.map (·.name) := hname ▸ List.mem_map_of_mem (·.name) hm1
          rw [← hx] at hmem
          exact (List.nodup_cons.mp (by simpa using hnd)).1 hmem
      rw [hzero, if_pos (show (m0.name == x) = true by simp [hx])]
      rfl
    · rw [List.find?_cons_of_neg _ (by simp [hx]),
        if_neg (show ¬((m0.name == x) = true) by simp [hx])]
      rw [ih f (List.nodup_cons.mp (by simpa using hnd)).2]
      simp

/-- Helper: a node's occurrence count in another node's dependent list is
the reverse count among filtered dependencies. -/
theorem count_dependentsOf (modules : List RModule)
    (hA : (activeNames modules).Nodup) (x n : String) :
    (dependentsOf modules n).count x = (depsOfName modules x).count n := by
  unfold dependentsOf depsOfName
  rw [count_flatMap_replicate x n (activeModules modules) _ (by simpa using hA)]
  cases hfind : (activeModules modules).find? (fun m' => m'.name == x) with
  | none => rfl
  | some m => rfl

/-- Helper: unfolding `decStep`'s fields. -/
theorem decStep_fields (st : PassSt) (d : String) :
    (decStep st d).visited = st.visited ∧
    (decStep st d).layer = st.layer ∧
    (∀ x, (decStep st d).indeg x = if x = d then st.indeg d - 1 else st.indeg x) ∧
    (decStep st d).nextReady =
      st.nextReady ++ (if st.indeg d - 1 = 0 then [d] else []) := by
  refine ⟨rfl, rfl, fun x => rfl, ?_⟩
  unfold decStep
  dsimp only
  by_cases h : st.indeg d - 1 = 0
  · rw [if_pos h, if_pos h]
  · rw [if_neg h, if_neg h, List.append_nil]

/-- Helper: the inner decrement fold of `processName`: pointwise indegree
subtraction, and `next_ready` gains exactly the names whose indegree crosses
zero, each at most once. -/
theorem decFold_spec :
    ∀ (ds : List String) (st : PassSt),
      ∃ extra : List String,
        (ds.foldl decStep st).visited = st.visited ∧
        (ds.foldl decStep st).layer = st.layer ∧
        (∀ x, (ds.foldl decStep st).indeg x = st.indeg x - (ds.count x : Int)) ∧
        (ds.foldl decStep st).nextReady = st.nextReady ++ extra ∧
        extra.Nodup ∧
        (∀ x, x ∈ extra ↔ 1 ≤ st.indeg x ∧ st.indeg x ≤ (ds.count x : Int)) := by
  intro ds
  induction ds with
  | nil =>
    intro st
    refine ⟨[], rfl, rfl, fun x => by simp, by simp, List.nodup_nil, fun x => ?_⟩
    simp only [List.not_mem_nil, List.count_nil, Nat.cast_zero, false_iff]
    omega
  | cons d ds ih =>
    intro st
    obtain ⟨hv, hl, hi, hr⟩ := decStep_fields st d
    obtain ⟨extra₁, h1, h2, h3, h4, h5, h6⟩ := ih (decStep st d)
    rw [List.foldl_cons]
    refine ⟨(if st.indeg d = 1 then [d] else []) ++ extra₁, ?_, ?_, ?_, ?_, ?_, ?_⟩
    · rw [h1, hv]
    · rw [h2, hl]
    · intro x
      rw [h3 x, hi x, List.count_cons]
      by_cases hxd : x = d
      · subst hxd
        rw [if_pos rfl, if_pos (show (x == x) = true by simp)]
        push_cast
        omega
      · rw [if_neg hxd, if_neg (show ¬((d == x) = true) by simp [Ne.symm hxd])]
        push_cast
        omega
    · rw [h4, hr]
      by_cases h : st.indeg d = 1
      · rw [if_pos (show st.indeg d - 1 = 0 by omega), if_pos h, List.append_assoc]
      · rw [if_neg (show ¬(st.indeg d - 1 = 0) by omega), if_neg h, List.append_nil,
          List.nil_append]
    · by_cases h : st.indeg d = 1
      · rw [if_pos h]
        have hd1 : d ∉ extra₁ := by
          intro hmem
          have hc := (h6 d).mp hmem
          rw [hi d, if_pos rfl] at hc
          omega
        simp [List.nodup_cons, hd1, h5]
      · rw [if_neg h]
        simpa using h5
    · intro x
      have hiff : x ∈ (if st.indeg d = 1 then [d] else []) ↔ x = d ∧ st.indeg d = 1 := by
        by_cases h : st.indeg d = 1 <;> simp [h]
      rw [List.mem_append, hiff, h6 x, hi x, List.count_cons]
      by_cases hxd : x = d
      · subst hxd
        rw [if_pos rfl, if_pos (show (x == x) = true by simp)]
        push_cast
        constructor
        · rintro (⟨-, hc⟩ | ⟨hc1, hc2⟩) <;> omega
        · rintro ⟨hc1, hc2⟩
          by_cases h : st.indeg x = 1
          · exact Or.inl ⟨rfl, h⟩
          · exact Or.inr (by omega)
      · rw [if_neg hxd, if_neg (show ¬((d == x) = true) by simp [Ne.symm hxd])]
        push_cast
        constructor
        · rintro (⟨hc1, -⟩ | ⟨hc1, hc2⟩)
          · exact absurd hc1 hxd
          · omega
        · rintro ⟨hc1, hc2⟩
          exact Or.inr (by omega)

/-- Helper: processing one fresh ready name: it is appended to `visited` and
to the current layer, indegrees become the remaining-dependency counts with
the name visited, and `next_ready` gains exactly the names this decrement
completes. -/
theorem processName_spec (modules : List RModule) (hA : (activeNames modules).Nodup)
    (st : PassSt) (n : String) (hn : n ∈ activeNames modules) (hvn : n ∉ st.visited)
    (hindeg : ∀ x, st.indeg x = (remDeps modules st.visited x : Int)) :
    ∃ extra : List String,
      (processName modules st n).visited = st.visited ++ [n] ∧
      (processName modules st n).layer.map (·.name) = st.layer.map (·.name) ++ [n] ∧
      (∀ x, (processName modules st n).indeg x =
        (remDeps modules (st.visited ++ [n]) x : Int)) ∧
      (processName modules st n).nextReady = st.nextReady ++ extra ∧
      extra.Nodup ∧
      (∀ x, x ∈ extra ↔
        1 ≤ remDeps modules st.visited x ∧
          remDeps modules (st.visited ++ [n]) x = 0) := by
  obtain ⟨m, hm, hmn⟩ := List.mem_map.mp hn
  have hfind : (activeModules modules).find? (fun m' => m'.name == n) = some m := by
    rw [← hmn]
    exact find?_eq_of_nodup_names (activeModules modules) (by simpa using hA) m hm
  obtain ⟨extra, e1, e2, e3, e4, e5, e6⟩ :=
    decFold_spec (dependentsOf modules n)
      { st with visited := st.visited ++ [n], layer := st.layer ++ ((activeModules modules).find? (fun m' => m'.name == n)).toList }
  have hgoal : processName modules st n = (dependentsOf modules n).foldl decStep
      { st with visited := st.visited ++ [n], layer := st.layer ++ ((activeModules modules).find? (fun m' => m'.name == n)).toList } := by
    unfold processName
    rw [if_neg hvn]
  refine ⟨extra, ?_, ?_, ?_, ?_, e5, ?_⟩
  · rw [hgoal, e1]
  · rw [hgoal, e2, hfind]
    simp [hmn]
  · intro x
    rw [hgoal, e3 x]
    show st.indeg x - ((dependentsOf modules n).count x : Int) = _
    rw [hindeg x, count_dependentsOf modules hA x n]
    have heq := remDeps_append_one modules st.visited n hvn x
    omega
  · rw [hgoal, e4]
  · intro x
    rw [e6 x]
    show (1 ≤ st.indeg x ∧ st.indeg x ≤ ((dependentsOf modules n).count x : Int)) ↔ _
    rw [hindeg x, count_dependentsOf modules hA x n]
    have heq := remDeps_append_one modules st.visited n hvn x
    omega

/-- Helper: a name with a positive remaining count is an enabled name. -/
theorem remDeps_pos_active (modules : List RModule) (V : List String) (x : String)
    (h : remDeps modules V x ≠ 0) : x ∈ activeNames modules := by
  apply depsOfName_ne_nil_mem
  intro hnil
  unfold remDeps at h
  rw [hnil] at h
  exact h rfl

/-- Helper: one full pass over the `ready` list: all its names are visited
in order and appended as the new layer, indegrees track the enlarged
visited set, and `next_ready` collects exactly the names completed during
the pass. -/
theorem passFold_spec (modules : List RModule) (hA : (activeNames modules).Nodup) :
    ∀ (R : List String) (st : PassSt),
      R.Nodup →
      (∀ n ∈ R, n ∈ activeNames modules) →
      (∀ n ∈ R, n ∉ st.visited) →
      (∀ n ∈ R, remDeps modules st.visited n = 0) →
      (∀ x, st.indeg x = (remDeps modules st.visited x : Int)) →
      (∀ x ∈ st.nextReady, remDeps modules st.visited x = 0) →
      st.nextReady.Nodup →
      ∃ extra : List String,
        (R.foldl (processName modules) st).visited = st.visited ++ R ∧
        (R.foldl (processName modules) st).layer.map (·.name) =
          st.layer.map (·.name) ++ R ∧
        (∀ x, (R.foldl (processName modules) st).indeg x =
          (remDeps modules (st.visited ++ R) x : Int)) ∧
        (R.foldl (processName modules) st).nextReady = st.nextReady ++ extra ∧
        (st.nextReady ++ extra).Nodup ∧
        (∀ x, x ∈ extra ↔ 1 ≤ remDeps modules st.visited x ∧
          remDeps modules (st.visited ++ R) x = 0) ∧
        (∀ x ∈ extra, x ∈ activeNames modules) := by
  intro R
  induction R with
  | nil =>
    intro st _ _ _ _ hindeg hnrz hnrd
    refine ⟨[], by simp, by simp, ?_, by simp, by simpa using hnrd, ?_, by simp⟩
    · intro x
      rw [List.foldl_nil, List.append_nil]
      exact hindeg x
    · intro x
      simp only [List.not_mem_nil, List.append_nil, false_iff]
      omega
  | cons n R' ih =>
    intro st hnd hsub hfresh hzero hindeg hnrz hnrd
    obtain ⟨extra₀, p1, p2, p3, p4, p5, p6⟩ :=
      processName_spec modules hA st n (hsub n (by simp)) (hfresh n (by simp)) hindeg
    have hnmem : n ∉ R' := (List.nodup_cons.mp hnd).1
    have hnd' : R'.Nodup := (List.nodup_cons.mp hnd).2
    have hmono1 : ∀ x, remDeps modules (st.visited ++ [n]) x ≤
        remDeps modules st.visited x := fun x => remDeps_mono modules st.visited [n] x
    obtain ⟨extra₁, q1, q2, q3, q4, q5, q6, q7⟩ := ih (processName modules st n)
      hnd'
      (fun m hm => hsub m (List.mem_cons_of_mem n hm))
      (by
        intro m hm
        rw [p1, List.mem_append]
        rintro (hmv | hmn)
        · exact hfresh m (List.mem_cons_of_mem n hm) hmv
        · simp only [List.mem_singleton] at hmn
          exact hnmem (hmn ▸ hm))
      (by
        intro m hm
        rw [p1]
        have h1 := hzero m (List.mem_cons_of_mem n hm)
        have h2 := hmono1 m
        omega)
      (by
        intro x
        rw [p1]
        exact p3 x)
      (by
        intro x hx
        rw [p1]
        rw [p4, List.mem_append] at hx
        rcases hx with hx | hx
        · have h1 := hnrz x hx
          have h2 := hmono1 x
          omega
        · exact ((p6 x).mp hx).2)
      (by
        rw [p4]
        have hdisj : ∀ x ∈ st.nextReady, x ∉ extra₀ := by
          intro x hx hmem
          have h1 := hnrz x hx
          have h2 := ((p6 x).mp hmem).1
          omega
        simp only [List.nodup_append]
        exact ⟨hnrd, p5, fun x hx => hdisj x hx⟩)
    have hl : (st.visited ++ [n]) ++ R' = st.visited ++ (n :: R') := by
      simp
    refine ⟨extra₀ ++ extra₁, ?_, ?_, ?_, ?_, ?_, ?_, ?_⟩
    · rw [List.foldl_cons, q1, p1, hl]
    · rw [List.foldl_cons, q2, p2, List.append_assoc, List.singleton_append]
    · intro x
      rw [List.foldl_cons, q3 x, p1, hl]
    · rw [List.foldl_cons, q4, p4, List.append_assoc]
    · rw [p4, List.append_assoc] at q5
      exact q5
    · intro x
      have hq6 := q6 x
      rw [p1, hl] at hq6
      rw [List.mem_append, p6 x, hq6]
      have hm1 := hmono1 x
      have hm2 : remDeps modules (st.visited ++ (n :: R')) x ≤
          remDeps modules (st.visited ++ [n]) x := by
        rw [← hl]
        exact remDeps_mono modules (st.visited ++ [n]) R' x
      omega
    · intro x hx
      rcases List.mem_append.mp hx with hx | hx
      · exact remDeps_pos_active modules st.visited x (by
          have := ((p6 x).mp hx).1
          omega)
      · exact q7 x hx

/-- Helper: appending a layer whose dependencies all lie in the names so far
preserves layer soundness. -/
theorem LayerOrder_append_one (modules : List RModule) :
    ∀ (L : List (List RModule)) (acc : List String) (nl : List RModule),
      LayerOrder modules acc L →
      (∀ m ∈ nl, ∀ d ∈ depsOfName modules m.name,
        d ∈ acc ++ L.flatten.map (·.name)) →
      LayerOrder modules acc (L ++ [nl]) := by
  intro L
  induction L with
  | nil =>
    intro acc nl _ h
    exact ⟨fun m hm d hd => by simpa using h m hm d hd, trivial⟩
  | cons l ls ih =>
    intro acc nl hord h
    obtain ⟨h1, h2⟩ := hord
    refine ⟨h1, ih (acc ++ l.map (·.name)) nl h2 ?_⟩
    intro m hm d hd
    have hmem := h m hm d hd
    simp only [List.flatten_cons, List.map_append, List.mem_append] at hmem ⊢
    tauto

/-- Helper: in a sound layering, a dependency not already accounted for by
`acc` sits in a strictly earlier layer than its dependent. -/
theorem layer_lt_of_order (modules : List RModule) :
    ∀ (L : List (List RModule)) (acc : List String) (n d : String),
      LayerOrder modules acc L →
      n ∈ L.flatten.map (·.name) →
      d ∈ depsOfName modules n →
      d ∉ acc →
      L.findIdx (fun l => decide (d ∈ l.map (·.name))) <
        L.findIdx (fun l => decide (n ∈ l.map (·.name))) := by
  intro L
  induction L with
  | nil =>
    intro acc n d _ hn
    simp at hn
  | cons l ls ih =>
    intro acc n d hord hn hd hdacc
    obtain ⟨h1, h2⟩ := hord
    by_cases hnl : n ∈ l.map (·.name)
    · exfalso
      obtain ⟨m, hm, hmn⟩ := List.mem_map.mp hnl
      exact hdacc (h1 m hm d (hmn ▸ hd))
    · have e1 : (decide (n ∈ l.map (·.name))) = false := by simpa using hnl
      by_cases hdl : d ∈ l.map (·.name)
      · have e2 : (decide (d ∈ l.map (·.name))) = true := by simpa using hdl
        simp only [List.findIdx_cons, e1, e2, cond_true, cond_false]
        omega
      · have e2 : (decide (d ∈ l.map (·.name))) = false := by simpa using hdl
        simp only [List.findIdx_cons, e1, e2, cond_false]
        have hnls : n ∈ ls.flatten.map (·.name) := by
          simp only [List.flatten_cons, List.map_append, List.mem_append] at hn
          tauto
        have hrec := ih (acc ++ l.map (·.name)) n d h2 hnls hd
          (by
            rw [List.mem_append]
            rintro (hc | hc)
            · exact hdacc hc
            · exact hdl hc)
        omega

/-- Helper: with globally distinct placed names, each placed name sits in
exactly one layer. -/
theorem countP_layers (n : String) :
    ∀ L : List (List RModule), (L.flatten.map (·.name)).Nodup →
      n ∈ L.flatten.map (·.name) →
      L.countP (fun l => decide (n ∈ l.map (·.name))) = 1 := by
  intro L
  induction L with
  | nil =>
    intro _ h
    simp at h
  | cons l ls ih =>
    intro hnd hn
    rw [List.countP_cons]
    have hsplit : (l.map (·.name) ++ ls.flatten.map (·.name)).Nodup := by
      simpa [List.flatten_cons] using hnd
    by_cases hnl : n ∈ l.map (·.name)
    · have hrest : n ∉ ls.flatten.map (·.name) :=
        fun hc => (List.nodup_append.mp hsplit).2.2 hnl hc
      have hz : ls.countP (fun l => decide (n ∈ l.map (·.name))) = 0 := by
        rw [List.countP_eq_zero]
        intro l' hl'
        simp only [decide_eq_true_eq]
        intro hmem
        obtain ⟨m, hm, hmn⟩ := List.mem_map.mp hmem
        exact hrest (List.mem_map.mpr
          ⟨m, List.mem_flatten.mpr ⟨l', hl', hm⟩, hmn⟩)
      rw [hz, if_pos (by simpa using hnl)]
    · have hnls : n ∈ ls.flatten.map (·.name) := by
        simp only [List.flatten_cons, List.map_append, List.mem_append] at hn
        tauto
      rw [ih (List.nodup_append.mp hsplit).2.1 hnls,
        if_neg (by simpa using hnl)]

/-- Helper: the `while ready:` loop preserves the invariant and, with fuel
at least the number of unvisited enabled modules plus one, reaches the
empty-`ready` fixpoint. -/
theorem kahnLoop_spec (modules : List RModule) (hA : (activeNames modules).Nodup) :
    ∀ (fuel : Nat) (st : KahnSt), KahnInv modules st →
      (activeNames modules).length + 1 ≤ fuel + st.visited.length →
      KahnInv modules (kahnLoop modules fuel st) ∧
        (kahnLoop modules fuel st).ready = [] := by
  intro fuel
  induction fuel with
  | zero =>
    intro st hinv hfuel
    exfalso
    have hlen : st.visited.length ≤ (activeNames modules).length :=
      (List.subperm_of_subset hinv.vNodup fun x hx => hinv.vSub x hx).length_le
    omega
  | succ f ih =>
    intro st hinv hfuel
    show KahnInv modules (if st.ready.isEmpty then st else _) ∧
      (if st.ready.isEmpty then st else _).ready = []
    by_cases hempty : st.ready.isEmpty
    · rw [if_pos hempty]
      exact ⟨hinv, List.isEmpty_iff.mp hempty⟩
    · rw [if_neg hempty]
      have hRne : st.ready ≠ [] := fun hc => hempty (by simp [hc])
      obtain ⟨extra, p1, p2, p3, p4, p5, p6, p7⟩ :=
        passFold_spec modules hA st.ready
          { visited := st.visited, indeg := st.indeg }
          hinv.rNodup hinv.rSub hinv.rFresh hinv.rZero hinv.indegEq
          (by intro x hx; simp at hx) (by simp)
      dsimp only
      unfold runPass
      have hv : (st.ready.foldl (processName modules)
          { visited := st.visited, indeg := st.indeg }).visited =
          st.visited ++ st.ready := p1
      have hind : ∀ x, (st.ready.foldl (processName modules)
          { visited := st.visited, indeg := st.indeg }).indeg x =
          (remDeps modules (st.visited ++ st.ready) x : Int) := p3
      have hnr : (st.ready.foldl (processName modules)
          { visited := st.visited, indeg := st.indeg }).nextReady = extra := p4
      have hnrd : extra.Nodup := by simpa using p5
      have hlayer_names : (st.ready.foldl (processName modules)
          { visited := st.visited, indeg := st.indeg }).layer.map (·.name) =
          st.ready := p2
      have hlayer_ne : ¬(st.ready.foldl (processName modules)
          { visited := st.visited, indeg := st.indeg }).layer.isEmpty = true := by
        intro hc
        have hc2 := List.isEmpty_iff.mp hc
        rw [hc2] at hlayer_names
        exact hRne hlayer_names.symm
      rw [if_neg hlayer_ne]
      have hvc : ∀ x ∈ st.visited ++ st.ready,
          remDeps modules (st.visited ++ st.ready) x = 0 := by
        intro x hx
        have hmono := remDeps_mono modules st.visited st.ready x
        rcases List.mem_append.mp hx with hx | hx
        · have := hinv.vClosed x hx
          omega
        · have := hinv.rZero x hx
          omega
      have hp6 : ∀ x, x ∈ extra ↔ 1 ≤ remDeps modules st.visited x ∧
          remDeps modules (st.visited ++ st.ready) x = 0 := p6
      have hp7 : ∀ x ∈ extra, x ∈ activeNames modules := p7
      apply ih
      · constructor
        · dsimp only
          rw [hv, List.nodup_append]
          exact ⟨hinv.vNodup, hinv.rNodup, fun x hx hx2 => hinv.rFresh x hx2 hx⟩
        · dsimp only
          intro x hx
          rw [hv] at hx
          rcases List.mem_append.mp hx with hx | hx
          · exact hinv.vSub x hx
          · exact hinv.rSub x hx
        · dsimp only
          intro x hx
          rw [hv] at hx ⊢
          exact hvc x hx
        · dsimp only
          intro x
          rw [hv]
          exact hind x
        · dsimp only
          rw [hnr]
          exact hnrd
        · dsimp only
          intro x hx
          rw [hnr] at hx
          exact hp7 x hx
        · dsimp only
          intro x hx
          rw [hnr] at hx
          rw [hv]
          have hx6 := (hp6 x).mp hx
          intro hmem
          rcases List.mem_append.mp hmem with hm | hm
          · have hc := hinv.vClosed x hm
            have hmono := remDeps_mono modules st.visited st.ready x
            omega
          · have hc := hinv.rZero x hm
            omega
        · dsimp only
          intro x hx
          rw [hnr] at hx
          rw [hv]
          exact ((hp6 x).mp hx).2
        · dsimp only
          intro x hxA hxv hxr
          rw [hv] at hxv
          rw [hnr] at hxr
          rw [hv]
          intro h0
          by_cases h1 : 1 ≤ remDeps modules st.visited x
          · exact hxr ((hp6 x).mpr ⟨h1, h0⟩)
          · have hx0 : remDeps modules st.visited x = 0 := by omega
            have hxnv : x ∉ st.visited :=
              fun hc => hxv (List.mem_append_left _ hc)
            have hxnr : x ∉ st.ready :=
              fun hc => hxv (List.mem_append_right _ hc)
            exact hinv.rComplete x hxA hxnv hxnr hx0
        · dsimp only
          rw [hv, List.flatten_append, List.map_append, hinv.flatEq]
          have hfl : ([(st.ready.foldl (processName modules)
              { visited := st.visited, indeg := st.indeg }).layer]).flatten =
              (st.ready.foldl (processName modules)
              { visited := st.visited, indeg := st.indeg }).layer := by
            simp
          rw [hfl, hlayer_names]
        · dsimp only
          apply LayerOrder_append_one modules st.layers [] _ hinv.ordered
          intro m hm d hd
          have hmname : m.name ∈ st.ready := by
            rw [← hlayer_names]
            exact List.mem_map_of_mem (·.name) hm
          have hz := hinv.rZero m.name hmname
          have hdv := remDeps_zero_subset modules st.visited m.name hz d hd
          rw [List.nil_append, hinv.flatEq]
          exact hdv
      · dsimp only
        rw [hv]
        have hlen : (st.visited ++ st.ready).length =
            st.visited.length + st.ready.length := List.length_append _ _
        have hrpos : 0 < st.ready.length := List.length_pos.mpr hRne
        omega

/-- Helper: with no names visited, the remaining count is the full filtered
dependency count. -/
theorem remDeps_nil (modules : List RModule) (x : String) :
    remDeps modules [] x = (depsOfName modules x).length := by
  unfold remDeps
  congr 1
  apply List.filter_eq_self.mpr
  intro a _
  simp

/-- Helper: the loop's entry state satisfies the invariant. -/
theorem kahnInit_inv (modules : List RModule) (hA : (activeNames modules).Nodup) :
    KahnInv modules (kahnInit modules) := by
  constructor
  · exact List.nodup_nil
  · intro x hx
    exact absurd hx (List.not_mem_nil x)
  · intro x hx
    exact absurd hx (List.not_mem_nil x)
  · intro x
    show ((depsOfName modules x).length : Int) = ((remDeps modules [] x : Nat) : Int)
    rw [remDeps_nil modules x]
  · exact hA.filter _
  · intro x hx
    exact (List.mem_filter.mp hx).1
  · intro x _ hx
    exact absurd hx (List.not_mem_nil x)
  · intro x hx
    have h := (List.mem_filter.mp hx).2
    show remDeps modules [] x = 0
    rw [remDeps_nil modules x]
    simpa using h
  · intro x hxA hxv hxr
    show remDeps modules [] x ≠ 0
    rw [remDeps_nil modules x]
    intro h0
    exact hxr (List.mem_filter.mpr ⟨hxA, by simpa using h0⟩)
  · rfl
  · trivial

/-- Helper: the supplied fuel reaches the empty-`ready` fixpoint while
keeping the invariant. -/
theorem kahnFinal_spec (modules : List RModule) (hA : (activeNames modules).Nodup) :
    KahnInv modules (kahnFinal modules) ∧ (kahnFinal modules).ready = [] := by
  have hnames : (activeNames modules).length = (activeModules modules).length := by
    simp [activeNames]
  have hv0 : (kahnInit modules).visited.length = 0 := rfl
  have h := kahnLoop_spec modules hA ((activeModules modules).length + 1)
    (kahnInit modules) (kahnInit_inv modules hA) (by omega)
  exact h

/-- Helper: every nonempty list has a rank-minimal element. -/
theorem exists_min_rank (rank : String → Nat) :
    ∀ l : List String, l ≠ [] → ∃ x ∈ l, ∀ y ∈ l, rank x ≤ rank y := by
  intro l
  induction l with
  | nil => intro h; exact absurd rfl h
  | cons a t ih =>
    intro _
    by_cases ht : t = []
    · subst ht
      refine ⟨a, by simp, ?_⟩
      intro y hy
      have : y = a := by simpa using hy
      subst this
      exact le_refl _
    · obtain ⟨x, hx, hmin⟩ := ih ht
      by_cases hax : rank a ≤ rank x
      · refine ⟨a, by simp, ?_⟩
        intro y hy
        rcases List.mem_cons.mp hy with rfl | hy
        · exact le_refl _
        · exact le_trans hax (hmin y hy)
      · refine ⟨x, List.mem_cons_of_mem a hx, ?_⟩
        intro y hy
        rcases List.mem_cons.mp hy with rfl | hy
        · omega
        · exact hmin y hy

/-- Helper: on an acyclic filtered dependency graph the loop visits every
enabled module. -/
theorem kahnFinal_complete (modules : List RModule)
    (hA : (activeNames modules).Nodup) (hacyc : DepsAcyclic modules) :
    (kahnFinal modules).visited.length = (activeModules modules).length := by
  obtain ⟨hinv, hready⟩ := kahnFinal_spec modules hA
  obtain ⟨rank, hrank⟩ := hacyc
  have hall : ∀ x ∈ activeNames modules, x ∈ (kahnFinal modules).visited := by
    by_contra hc
    push_neg at hc
    obtain ⟨x0, hx0A, hx0v⟩ := hc
    have hUne : (activeNames modules).filter
        (fun x => decide (x ∉ (kahnFinal modules).visited)) ≠ [] := by
      intro hnil
      have hx0U : x0 ∈ (activeNames modules).filter
          (fun x => decide (x ∉ (kahnFinal modules).visited)) :=
        List.mem_filter.mpr ⟨hx0A, by simpa using hx0v⟩
      rw [hnil] at hx0U
      exact absurd hx0U (List.not_mem_nil x0)
    obtain ⟨xm, hxmU, hxmmin⟩ := exists_min_rank rank _ hUne
    have hxmA : xm ∈ activeNames modules := (List.mem_filter.mp hxmU).1
    have hxmv : xm ∉ (kahnFinal modules).visited := by
      have h := (List.mem_filter.mp hxmU).2
      simpa using h
    have hxmr : xm ∉ (kahnFinal modules).ready := by
      rw [hready]
      exact List.not_mem_nil xm
    have hpos := hinv.rComplete xm hxmA hxmv hxmr
    obtain ⟨d, hd, hdv⟩ := remDeps_pos_exists modules _ xm hpos
    have hdA : d ∈ activeNames modules := depsOfName_subset_active modules xm d hd
    have hdU : d ∈ (activeNames modules).filter
        (fun x => decide (x ∉ (kahnFinal modules).visited)) :=
      List.mem_filter.mpr ⟨hdA, by simpa using hdv⟩
    have hlt : rank d < rank xm := hrank d xm ⟨hxmA, hd⟩
    have hle : rank xm ≤ rank d := hxmmin d hdU
    omega
  have h1 : List.Subperm (kahnFinal modules).visited (activeNames modules) :=
    List.subperm_of_subset hinv.vNodup (fun x hx => hinv.vSub x hx)
  have h2 : List.Subperm (activeNames modules) (kahnFinal modules).visited :=
    List.subperm_of_subset hA hall
  have hl1 := h1.length_le
  have hl2 := h2.length_le
  have hnames : (activeNames modules).length = (activeModules modules).length := by
    simp [activeNames]
  omega

/-- Helper: for an enabled module with globally distinct enabled names,
`deps_map[name]` is exactly its declared dependencies restricted to the
enabled names. -/
theorem depsOfName_of_mem (modules : List RModule)
    (hA : (activeNames modules).Nodup) (m : RModule)
    (hm : m ∈ activeModules modules) :
    depsOfName modules m.name =
      m.depends_on.filter (fun d => d ∈ activeNames modules) := by
  unfold depsOfName
  rw [find?_eq_of_nodup_names (activeModules modules) (by simpa [activeNames] using hA)
    m hm]

/-- Helper: when the loop placed every enabled module, the names flattened
out of the produced layers are a permutation of the enabled names. -/
theorem kahnFinal_flatten_perm (modules : List RModule)
    (hA : (activeNames modules).Nodup)
    (hlen : (kahnFinal modules).visited.length = (activeModules modules).length) :
    List.Perm ((kahnFinal modules).layers.flatten.map (·.name))
      (activeNames modules) := by
  obtain ⟨hinv, _⟩ := kahnFinal_spec modules hA
  rw [hinv.flatEq]
  have hsub : List.Subperm (kahnFinal modules).visited (activeNames modules) :=
    List.subperm_of_subset hinv.vNodup (fun x hx => hinv.vSub x hx)
  apply hsub.perm_of_length_le
  have hnames : (activeNames modules).length = (activeModules modules).length := by
    simp [activeNames]
  omega

/-- Claim C2: when the enabled modules' names are distinct and their
dependency graph restricted to enabled modules is acyclic, the scheduler's
layer resolution places every enabled module in exactly one layer (its name
occurs once across the flattened layers and exactly one layer contains it),
and for every dependency edge on an enabled module the dependency's layer
index is strictly below the dependent's; dependencies on disabled or absent
modules impose no such constraint and do not block placement. -/
theorem resolve_layers_acyclic (modules : List RModule)
    (hA : (activeNames modules).Nodup) (hacyc : DepsAcyclic modules) :
    (∀ m ∈ activeModules modules,
      ((resolve_module_layers modules).flatten.map (·.name)).count m.name = 1 ∧
      (resolve_module_layers modules).countP
        (fun l => decide (m.name ∈ l.map (·.name))) = 1) ∧
    (∀ m ∈ activeModules modules, ∀ d ∈ m.depends_on, d ∈ activeNames modules →
      layerIdxOf (resolve_module_layers modules) d <
        layerIdxOf (resolve_module_layers modules) m.name) := by
  obtain ⟨hinv, hready⟩ := kahnFinal_spec modules hA
  have hlen := kahnFinal_complete modules hA hacyc
  have hres : resolve_module_layers modules = (kahnFinal modules).layers := by
    unfold resolve_module_layers
    rw [if_neg (by simp [hlen])]
  have hperm := kahnFinal_flatten_perm modules hA hlen
  have hndf : ((kahnFinal modules).layers.flatten.map (·.name)).Nodup :=
    hperm.nodup_iff.mpr hA
  constructor
  · intro m hm
    have hmn : m.name ∈ activeNames modules := List.mem_map_of_mem (·.name) hm
    have hmem : m.name ∈ (kahnFinal modules).layers.flatten.map (·.name) :=
      hperm.mem_iff.mpr hmn
    constructor
    · rw [hres, hperm.count_eq]
      exact List.count_eq_one_of_mem hA hmn
    · rw [hres]
      exact countP_layers m.name _ hndf hmem
  · intro m hm d hd hdA
    have hmn : m.name ∈ activeNames modules := List.mem_map_of_mem (·.name) hm
    have hmem : m.name ∈ (kahnFinal modules).layers.flatten.map (·.name) :=
      hperm.mem_iff.mpr hmn
    have hdep : d ∈ depsOfName modules m.name := by
      rw [depsOfName_of_mem modules hA m hm]
      exact List.mem_filter.mpr ⟨hd, by simpa using hdA⟩
    rw [hres]
    exact layer_lt_of_order modules (kahnFinal modules).layers [] m.name d
      hinv.ordered hmem hdep (List.not_mem_nil d)

/-- Helper: the two-module chain `a ← b` has distinct enabled names. -/
theorem modsAcyclic_nodup : (activeNames modsAcyclic).Nodup := by decide

/-- Helper: ranking `b` above `a` witnesses acyclicity of the concrete
two-module chain. -/
theorem modsAcyclic_acyclic : DepsAcyclic modsAcyclic := by
  refine ⟨fun n => if n = "b" then 1 else 0, ?_⟩
  intro d n hdn
  obtain ⟨hn, hd⟩ := hdn
  have hnames : activeNames modsAcyclic = ["a", "b"] := by decide
  rw [hnames] at hn
  have hn2 : n = "a" ∨ n = "b" := by simpa using hn
  rcases hn2 with rfl | rfl
  · have hda : depsOfName modsAcyclic "a" = [] := by decide
    rw [hda] at hd
    exact absurd hd (List.not_mem_nil d)
  · have hdb : depsOfName modsAcyclic "b" = ["a"] := by decide
    rw [hdb] at hd
    have hd2 : d = "a" := by simpa using hd
    subst hd2
    decide

/-- Witness for C2 on the concrete chain `a ← b`: both hypotheses hold and
the layering conclusions follow. -/
theorem resolve_layers_acyclic_witness :
    (activeNames modsAcyclic).Nodup ∧ DepsAcyclic modsAcyclic ∧
    ((∀ m ∈ activeModules modsAcyclic,
      ((resolve_module_layers modsAcyclic).flatten.map (·.name)).count m.name = 1 ∧
      (resolve_module_layers modsAcyclic).countP
        (fun l => decide (m.name ∈ l.map (·.name))) = 1) ∧
    (∀ m ∈ activeModules modsAcyclic, ∀ d ∈ m.depends_on,
      d ∈ activeNames modsAcyclic →
      layerIdxOf (resolve_module_layers modsAcyclic) d <
        layerIdxOf (resolve_module_layers modsAcyclic) m.name)) :=
  ⟨modsAcyclic_nodup, modsAcyclic_acyclic,
    resolve_layers_acyclic modsAcyclic modsAcyclic_nodup modsAcyclic_acyclic⟩

/-- Helper: along a dependency chain any rank that strictly decreases across
edges is no larger at the last node than at the first. -/
theorem chain_desc (modules : List RModule) (f : String → Nat)
    (hf : ∀ a b, DepRel modules b a → f b < f a) :
    ∀ (rest : List String) (n : String),
      List.Chain (fun a b => DepRel modules b a) n rest →
      f ((n :: rest).getLast (List.cons_ne_nil n rest)) ≤ f n := by
  intro rest
  induction rest with
  | nil =>
    intro n _
    exact le_refl _
  | cons b t ih =>
    intro n hch
    rw [List.chain_cons] at hch
    obtain ⟨h1, h2⟩ := hch
    have hrec := ih b h2
    have hgl : (n :: b :: t).getLast (List.cons_ne_nil n (b :: t)) =
        (b :: t).getLast (List.cons_ne_nil b t) :=
      List.getLast_cons (List.cons_ne_nil b t)
    rw [hgl]
    have hedge := hf n b h1
    omega

/-- Helper: a dependency cycle among enabled modules forces the loop to
leave some enabled module unvisited. -/
theorem cycle_blocks (modules : List RModule)
    (hA : (activeNames modules).Nodup)
    (c : List String) (hc : DepCycle modules c) :
    (kahnFinal modules).visited.length ≠ (activeModules modules).length := by
  intro hlen
  obtain ⟨hinv, _⟩ := kahnFinal_spec modules hA
  have hperm := kahnFinal_flatten_perm modules hA hlen
  have hf : ∀ a b, DepRel modules b a →
      layerIdxOf (kahnFinal modules).layers b <
        layerIdxOf (kahnFinal modules).layers a := by
    intro a b hab
    obtain ⟨haA, hbdep⟩ := hab
    have hmem : a ∈ (kahnFinal modules).layers.flatten.map (·.name) :=
      hperm.mem_iff.mpr haA
    exact layer_lt_of_order modules (kahnFinal modules).layers [] a b
      hinv.ordered hmem hbdep (List.not_mem_nil b)
  cases c with
  | nil => exact hc
  | cons n rest =>
    obtain ⟨hch, hlast⟩ := hc
    have h1 := chain_desc modules (layerIdxOf (kahnFinal modules).layers) hf rest n hch
    have h2 := hf ((n :: rest).getLast (List.cons_ne_nil n rest)) n hlast
    omega

/-- Helper: flattening singleton layers recovers the original list. -/
theorem flatten_singletons {α : Type} :
    ∀ l : List α, (l.map (fun x => [x])).flatten = l := by
  intro l
  induction l with
  | nil => rfl
  | cons a t ih => simp [ih]

/-- Helper: among singleton layers, the number of layers containing a name
is its occurrence count among the modules' names. -/
theorem countP_singletons (x : String) :
    ∀ A : List RModule,
      (A.map (fun m => [m])).countP (fun l => decide (x ∈ l.map (·.name))) =
        (A.map (·.name)).count x := by
  intro A
  induction A with
  | nil => rfl
  | cons m t ih =>
    simp only [List.map_cons]
    rw [List.countP_cons, List.count_cons, ih]
    congr 1
    by_cases h : x = m.name
    · rw [if_pos (by simp [h]), if_pos (by simp [h])]
    · rw [if_neg (by simp [h]), if_neg (by simp [Ne.symm h])]

/-- Claim C5: when the enabled modules' names are distinct and the filtered
dependency graph contains a cycle, the scheduler falls back to one enabled
module per layer in original declaration order, and every enabled module is
still placed exactly once (its name occurs once across the flattened layers
and exactly one layer contains it). -/
theorem resolve_layers_cycle_fallback (modules : List RModule)
    (hA : (activeNames modules).Nodup)
    (hcyc : ∃ c, DepCycle modules c) :
    resolve_module_layers modules =
      (modules.filter (·.enabled)).map (fun m => [m]) ∧
    ∀ m ∈ activeModules modules,
      ((resolve_module_layers modules).flatten.map (·.name)).count m.name = 1 ∧
      (resolve_module_layers modules).countP
        (fun l => decide (m.name ∈ l.map (·.name))) = 1 := by
  obtain ⟨c, hc⟩ := hcyc
  have hne := cycle_blocks modules hA c hc
  have hres : resolve_module_layers modules =
      (activeModules modules).map (fun m => [m]) := by
    unfold resolve_module_layers
    rw [if_pos hne]
  refine ⟨hres, ?_⟩
  intro m hm
  have hmn : m.name ∈ activeNames modules := List.mem_map_of_mem (·.name) hm
  constructor
  · rw [hres, flatten_singletons]
    exact List.count_eq_one_of_mem hA hmn
  · rw [hres, countP_singletons]
    exact List.count_eq_one_of_mem hA hmn

/-- Helper: the two-module cycle has distinct enabled names. -/
theorem modsCyclic_nodup : (activeNames modsCyclic).Nodup := by decide

/-- Helper: `["a", "b"]` is a dependency cycle of the concrete mutually
dependent module pair. -/
theorem modsCyclic_cycle : DepCycle modsCyclic ["a", "b"] := by
  constructor
  · apply List.Chain.cons
    · show DepRel modsCyclic "b" "a"
      constructor
      · show "a" ∈ activeNames modsCyclic
        decide
      · show "b" ∈ depsOfName modsCyclic "a"
        decide
    · exact List.Chain.nil
  · show DepRel modsCyclic "a" (["a", "b"].getLast (by simp))
    constructor
    · show "b" ∈ activeNames modsCyclic
      decide
    · show "a" ∈ depsOfName modsCyclic "b"
      decide

/-- Witness for C5 on the concrete two-module cycle: both hypotheses hold
and the fallback conclusions follow. -/
theorem resolve_layers_cycle_fallback_witness :
    (activeNames modsCyclic).Nodup ∧ (∃ c, DepCycle modsCyclic c) ∧
    (resolve_module_layers modsCyclic =
      (modsCyclic.filter (·.enabled)).map (fun m => [m]) ∧
    ∀ m ∈ activeModules modsCyclic,
      ((resolve_module_layers modsCyclic).flatten.map (·.name)).count m.name = 1 ∧
      (resolve_module_layers modsCyclic).countP
        (fun l => decide (m.name ∈ l.map (·.name))) = 1) :=
  ⟨modsCyclic_nodup, ⟨["a", "b"], modsCyclic_cycle⟩,
    resolve_layers_cycle_fallback modsCyclic modsCyclic_nodup
      ⟨["a", "b"], modsCyclic_cycle⟩⟩
